import Mathlib

/-!
Verification development for the rustworkx `PyGraph` undirected graph
container (`src/graph.rs`).

The container is backed by a slot store (petgraph `StableGraph`, an external
dependency of the repository): nodes and edges live in indexed slot tables,
a removed slot leaves a hole (`none`), and allocation reuses freed slots.
The store itself is not part of the repository's sources, so its operations
are modelled from the specification (spec §4.1: allocation reuses the lowest
freed slot, else extends the table; removal of a node frees the node slot and
every incident edge slot; `node_bound`/`edge_bound` are one past the highest
live index, which is what `__getstate__`/`__setstate__` consult).

Everything defined on `PyGraph` below (`_add_edge`, `add_edge`, `remove_node`,
`remove_edges_from`, `degree`, `clear`, `getstate`, `setstate`, the
incident-edge partition of `substitute_node_with_subgraph`, `contract_nodes`
dispatch, `_from_adjacency_matrix`) is translated from `src/graph.rs`.
-/

/-- Slot lookup: the content of slot `i`, `none` when the slot is a hole or
out of range. -/
def slotAt (l : List (Option α)) (i : Nat) : Option α :=
  l.getD i none

/-- Modelled from the spec: the store's free-slot search.  Returns the lowest
index holding a hole (`none`), if any (spec §4.1: "reuses the lowest freed
slot if one exists, else extends the bound"). -/
def findFreeSlot : List (Option α) → Option Nat
  | [] => none
  | none :: _ => some 0
  | some _ :: rest => (findFreeSlot rest).map (· + 1)

/-- Modelled from the spec: slot allocation.  Fills the lowest freed slot if
one exists, otherwise appends a fresh slot; returns the new table and the
handle of the allocated slot. -/
def allocSlot (l : List (Option α)) (a : α) : List (Option α) × Nat :=
  match findFreeSlot l with
  | some i => (l.set i (some a), i)
  | none => (l ++ [some a], l.length)

/-- Drop the trailing holes of a slot table.  `trimSlots l` has the length
`node_bound`/`edge_bound` reports: one past the highest live slot. -/
def trimSlots (l : List (Option α)) : List (Option α) :=
  (l.reverse.dropWhile fun s => s.isNone).reverse

/-- One past the highest live slot index (petgraph's `node_bound` /
`edge_bound`, the functions `__getstate__` and `__setstate__` call). -/
def slotBound (l : List (Option α)) : Nat :=
  (trimSlots l).length

/-- An edge slot: stored source, stored target, payload. -/
abbrev EdgeData (E : Type) := Nat × Nat × E

/-- Does edge data `e` connect `u` and `v` in either orientation?  Mirrors
petgraph `find_edge` on an undirected graph. -/
def matchPair (u v : Nat) (e : EdgeData E) : Bool :=
  (e.1 == u && e.2.1 == v) || (e.1 == v && e.2.1 == u)

/-- Is node `i` an endpoint of edge data `e`? -/
def touchesNode (i : Nat) (e : EdgeData E) : Bool :=
  e.1 == i || e.2.1 == i

/-- Modelled from the spec: the slot store underlying the container
(petgraph `StableGraph`, not part of this repository's sources).  `nodes`
maps a node handle to its payload slot, `edges` maps an edge handle to its
`(source, target, payload)` slot; a `none` entry is a hole left by removal. -/
structure Store (V E : Type) where
  nodes : List (Option V)
  edges : List (Option (EdgeData E))
deriving DecidableEq

namespace Store

/-- Modelled from the spec: node allocation (spec §4.1 `allocate_node`). -/
def add_node (g : Store V E) (v : V) : Store V E × Nat :=
  let r := allocSlot g.nodes v
  ({ g with nodes := r.1 }, r.2)

/-- Modelled from the spec: raw edge allocation.  The raw store trusts its
caller on endpoint validity (spec §4.1 `allocate_edge`). -/
def add_edge (g : Store V E) (u v : Nat) (w : E) : Store V E × Nat :=
  let r := allocSlot g.edges (u, v, w)
  ({ g with edges := r.1 }, r.2)

/-- Modelled from the spec: node removal.  A no-op on an absent handle;
otherwise frees the node slot and every incident edge slot
(spec §4.1 `remove_node`). -/
def remove_node (g : Store V E) (i : Nat) : Store V E :=
  if (slotAt g.nodes i).isSome then
    { nodes := g.nodes.set i none,
      edges := g.edges.map fun s =>
        match s with
        | some e => if touchesNode i e then none else some e
        | none => none }
  else g

/-- Modelled from the spec: edge removal by handle, a no-op when absent. -/
def remove_edge (g : Store V E) (i : Nat) : Store V E :=
  if (slotAt g.edges i).isSome then { g with edges := g.edges.set i none }
  else g

/-- Walk the edge table for an edge connecting `u` and `v`. -/
def findEdgeAux (u v : Nat) : List (Option (EdgeData E)) → Option Nat
  | [] => none
  | some e :: rest =>
    if matchPair u v e then some 0 else (findEdgeAux u v rest).map (· + 1)
  | none :: rest => (findEdgeAux u v rest).map (· + 1)

/-- Modelled from the spec: find an edge between `u` and `v` in either
orientation (petgraph `find_edge` on an undirected graph); returns the
lowest matching live edge handle. -/
def find_edge (g : Store V E) (u v : Nat) : Option Nat :=
  findEdgeAux u v g.edges

/-- Number of live nodes (petgraph `node_count`). -/
def node_count (g : Store V E) : Nat :=
  (g.nodes.filter fun s => s.isSome).length

/-- Number of live edges (petgraph `edge_count`). -/
def edge_count (g : Store V E) : Nat :=
  (g.edges.filter fun s => s.isSome).length

end Store

/-- Live edges with their handles, in increasing handle order, starting at
handle `b` (petgraph `edge_references`, stored orientation). -/
def liveEdgesFrom : List (Option (EdgeData E)) → Nat → List (Nat × EdgeData E)
  | [], _ => []
  | none :: rest, b => liveEdgesFrom rest (b + 1)
  | some e :: rest, b => (b, e) :: liveEdgesFrom rest (b + 1)

/-- Live edges of the store with their handles, stored orientation. -/
def Store.liveEdges (g : Store V E) : List (Nat × EdgeData E) :=
  liveEdgesFrom g.edges 0

/-- Modelled from the spec: the undirected incident-edge iterator
(petgraph `edges(n)`), which surfaces every edge connected to `n` with the
reference normalised so that its source is `n` (the spec's "the undirected
edge iterator can surface the same edge from both directional queries"). -/
def Store.edgesOf (g : Store V E) (n : Nat) : List (Nat × EdgeData E) :=
  (g.liveEdges.filter fun p => p.2.1 == n) ++
    ((g.liveEdges.filter fun p => p.2.2.1 == n && p.2.1 != n).map
      fun p => (p.1, (p.2.2.1, p.2.1, p.2.2.2)))

/-- Error kinds raised by the container's fallible methods. -/
inductive PyErr where
  | indexError
  | noEdgeBetweenNodes
deriving DecidableEq

deriving instance DecidableEq for Except

/-- The `PyGraph` class of `src/graph.rs`: the slot store plus the
holes-ever-existed flag and the multigraph flag. -/
structure PyGraph (V E : Type) where
  graph : Store V E
  node_removed : Bool
  multigraph : Bool
deriving DecidableEq

namespace PyGraph

/-- `PyGraph::new`: a fresh empty container (`src/graph.rs` lines 196-212). -/
def new (multigraph : Bool) : PyGraph V E :=
  { graph := { nodes := [], edges := [] }, node_removed := false, multigraph }

/-- `PyGraph::add_node` (`src/graph.rs` lines 1097-1101). -/
def add_node (g : PyGraph V E) (v : V) : PyGraph V E × Nat :=
  let r := g.graph.add_node v
  ({ g with graph := r.1 }, r.2)

/-- `PyGraph::_add_edge` (`src/graph.rs` lines 178-190): on a non-multigraph,
an insertion between an already-connected pair overwrites the existing
edge's payload in place and returns its handle; otherwise a new edge is
allocated.  (The unreachable arm where `find_edge` returns a handle whose
slot is a hole stands in for the source's `unwrap`.) -/
def _add_edge (g : PyGraph V E) (u v : Nat) (w : E) : PyGraph V E × Nat :=
  if !g.multigraph then
    match g.graph.find_edge u v with
    | some idx =>
      match slotAt g.graph.edges idx with
      | some e =>
        ({ g with graph :=
            { g.graph with edges := g.graph.edges.set idx (some (e.1, e.2.1, w)) } }, idx)
      | none => (g, idx)
    | none =>
      let r := g.graph.add_edge u v w
      ({ g with graph := r.1 }, r.2)
  else
    let r := g.graph.add_edge u v w
    ({ g with graph := r.1 }, r.2)

/-- `PyGraph::add_edge` (`src/graph.rs` lines 904-913): checks both endpoints
are present, then defers to `_add_edge`. -/
def add_edge (g : PyGraph V E) (u v : Nat) (w : E) :
    Except PyErr (PyGraph V E × Nat) :=
  if (slotAt g.graph.nodes u).isSome && (slotAt g.graph.nodes v).isSome then
    .ok (g._add_edge u v w)
  else .error .indexError

/-- `PyGraph::remove_node` (`src/graph.rs` lines 883-888): removes the node
from the store (a store-level no-op when absent), unconditionally sets
`node_removed`, and always returns `Ok`. -/
def remove_node (g : PyGraph V E) (i : Nat) : Except PyErr (PyGraph V E) :=
  .ok { g with graph := g.graph.remove_node i, node_removed := true }

/-- `PyGraph::remove_edge_from_index` (`src/graph.rs` lines 1061-1065). -/
def remove_edge_from_index (g : PyGraph V E) (i : Nat) : PyGraph V E :=
  { g with graph := g.graph.remove_edge i }

/-- `PyGraph::remove_edges_from` (`src/graph.rs` lines 1078-1089): removes
the first edge found for each pair in order; on the first pair with no live
edge it stops with `NoEdgeBetweenNodes`, keeping the removals already done. -/
def remove_edges_from (g : PyGraph V E) :
    List (Nat × Nat) → PyGraph V E × Option PyErr
  | [] => (g, none)
  | (u, v) :: rest =>
    match g.graph.find_edge u v with
    | none => (g, some .noEdgeBetweenNodes)
    | some idx =>
      remove_edges_from { g with graph := g.graph.remove_edge idx } rest

/-- `PyGraph::clear` (`src/graph.rs` lines 378-381): drops all slots and
records that holes have existed. -/
def clear (g : PyGraph V E) : PyGraph V E :=
  { g with graph := { nodes := [], edges := [] }, node_removed := true }

/-- `PyGraph::degree` (`src/graph.rs` lines 1202-1211): fold over the
incident edges, a self-loop contributing 2 and any other edge 1. -/
def degree (g : PyGraph V E) (n : Nat) : Nat :=
  (g.graph.edgesOf n).foldl
    (fun count p => if p.2.1 == p.2.2.1 then count + 2 else count + 1) 0

end PyGraph

/-! ## The state codec (`__getstate__` / `__setstate__`) -/

/-- The external state representation (`src/graph.rs` lines 228-258):
live nodes as `(handle, payload)` pairs in increasing handle order, the edge
table position-by-position up to the edge bound with holes encoded as
`none`, and the holes-ever-existed flag. -/
structure GState (V E : Type) where
  nodes : List (Nat × V)
  edges : List (Option (EdgeData E))
  nodes_removed : Bool
deriving DecidableEq

/-- The live nodes of a slot table as `(handle, payload)` pairs in increasing
handle order, the first slot having handle `b`. -/
def encN : List (Option V) → Nat → List (Nat × V)
  | [], _ => []
  | none :: rest, b => encN rest (b + 1)
  | some w :: rest, b => (b, w) :: encN rest (b + 1)

/-- `PyGraph::__getstate__` (`src/graph.rs` lines 228-258). -/
def PyGraph.getstate (g : PyGraph V E) : GState V E :=
  { nodes := encN g.graph.nodes 0,
    edges := (List.range (slotBound g.graph.edges)).map fun i => slotAt g.graph.edges i,
    nodes_removed := g.node_removed }

/-- The `while next_index > self.graph.node_bound()` padding loop of
`__setstate__`'s general case (`src/graph.rs` lines 315-319), with explicit
fuel (the source's loop terminates because each `add_node` on the hole-free
graph under construction extends the bound). -/
def padLoop [Inhabited V] :
    Nat → Store V E → List Nat → Nat → Store V E × List Nat
  | 0, s, tmps, _ => (s, tmps)
  | fuel + 1, s, tmps, next =>
    if slotBound s.nodes < next then
      let r := s.add_node default
      padLoop fuel r.1 (tmps ++ [r.2]) next
    else (s, tmps)

/-- The general-case node loop of `__setstate__` (`src/graph.rs` lines
311-322): for each encoded `(handle, payload)`, pad with recorded temporary
nodes until the bound reaches the handle, then add the real node. -/
def buildLoop [Inhabited V] :
    List (Nat × V) → Store V E → List Nat → Store V E × List Nat
  | [], s, tmps => (s, tmps)
  | (i, w) :: rest, s, tmps =>
    let p := padLoop i s tmps i
    buildLoop rest ((p.1.add_node w).1) p.2

/-- `PyGraph::__setstate__` (`src/graph.rs` lines 260-351), starting from the
fresh container pickling rebuilds via `__getnewargs_ex__`.  Empty state
returns early; otherwise the nodes are rebuilt by one of the three paths
(no holes / single node / general), and the edge table is rebuilt with
temporary self-loops on a scratch node standing in for the holes, the
scratch node's removal freeing them all. -/
def setstate [Inhabited V] [Inhabited E] (multigraph : Bool) (st : GState V E) :
    PyGraph V E :=
  if st.nodes.isEmpty then
    { graph := { nodes := [], edges := [] },
      node_removed := st.nodes_removed, multigraph }
  else
    let s0 : Store V E := { nodes := [], edges := [] }
    let s1 : Store V E :=
      if !st.nodes_removed then
        st.nodes.foldl (fun s p => (s.add_node p.2).1) s0
      else if st.nodes.length == 1 then
        let h0 := st.nodes.getD 0 (0, default)
        let sA := (List.range h0.1).foldl (fun s _ => (s.add_node default).1) s0
        let sB := (sA.add_node h0.2).1
        (List.range h0.1).foldl (fun s i => s.remove_node i) sB
      else
        let bl := buildLoop st.nodes s0 []
        bl.2.foldl (fun s t => s.remove_node t) bl.1
    let rt := s1.add_node default
    let s2 := st.edges.foldl
      (fun s slot =>
        match slot with
        | none => (s.add_edge rt.2 rt.2 default).1
        | some e => (s.add_edge e.1 e.2.1 e.2.2).1) rt.1
    { graph := s2.remove_node rt.2,
      node_removed := st.nodes_removed, multigraph }

/-! ## Incident-edge partition of `substitute_node_with_subgraph` -/

/-- The `in_edges` collection of `substitute_node_with_subgraph`
(`src/graph.rs` lines 1806-1811): edges whose stored target is `node`,
from the global edge iterator, keeping handles. -/
def Store.in_edges_of (g : Store V E) (n : Nat) : List (Nat × EdgeData E) :=
  g.liveEdges.filter fun p => p.2.2.1 == n

/-- The `in_set` of `substitute_node_with_subgraph` (`src/graph.rs` lines
1813-1814): the `(source, target)` pairs present on the incoming edges. -/
def Store.in_pairs_of (g : Store V E) (n : Nat) : List (Nat × Nat) :=
  (g.in_edges_of n).map fun p => (p.2.1, p.2.2.1)

/-- The `out_edges` collection of `substitute_node_with_subgraph`
(`src/graph.rs` lines 1816-1821): the incident-edge iterator (references
normalised with source `n`), excluding any edge whose
`(target, source)` pair was already captured by the incoming set. -/
def Store.out_edges_of (g : Store V E) (n : Nat) : List (Nat × EdgeData E) :=
  (g.edgesOf n).filter fun p => !((g.in_pairs_of n).contains (p.2.2.1, p.2.1))

/-! ## contract_nodes -/

/-- Modelled from the spec: `contract_nodes_simple` of rustworkx-core (not
part of this repository's sources; spec §4.4 `contract_nodes`).  Nodes not
in the graph are ignored; a new node carrying `obj` is allocated; every edge
incident to the set is re-routed to the new node (edges inside the set
becoming self-loops); the set's nodes are removed; re-routed edges are
re-inserted in handle order, a collision between two re-routed edges on the
same endpoint pair being resolved by `combine existing new`. -/
def Store.contract_nodes_simple (g : Store V E) (nodes : List Nat) (obj : V)
    (combine : E → E → E) : Store V E × Nat :=
  let members := nodes.filter fun i => (slotAt g.nodes i).isSome
  let r := g.add_node obj
  let n := r.2
  let rerouted : List (EdgeData E) :=
    g.liveEdges.filterMap fun p =>
      if members.contains p.2.1 || members.contains p.2.2.1 then
        some (if members.contains p.2.1 then n else p.2.1,
              if members.contains p.2.2.1 then n else p.2.2.1,
              p.2.2.2)
      else none
  let g2 := members.foldl (fun st i => st.remove_node i) r.1
  let g3 := rerouted.foldl
    (fun st e =>
      match st.find_edge e.1 e.2.1 with
      | some idx =>
        match slotAt st.edges idx with
        | some old =>
          { st with edges := st.edges.set idx (some (old.1, old.2.1, combine old.2.2 e.2.2)) }
        | none => st
      | none => (st.add_edge e.1 e.2.1 e.2.2).1) g2
  (g3, n)

/-- Modelled from the spec: the multigraph variant `contract_nodes` of
rustworkx-core (spec §4.4): as above but parallel re-routed edges are all
kept, no merging. -/
def Store.contract_nodes_keep (g : Store V E) (nodes : List Nat) (obj : V) :
    Store V E × Nat :=
  let members := nodes.filter fun i => (slotAt g.nodes i).isSome
  let r := g.add_node obj
  let n := r.2
  let rerouted : List (EdgeData E) :=
    g.liveEdges.filterMap fun p =>
      if members.contains p.2.1 || members.contains p.2.2.1 then
        some (if members.contains p.2.1 then n else p.2.1,
              if members.contains p.2.2.1 then n else p.2.2.1,
              p.2.2.2)
      else none
  let g2 := members.foldl (fun st i => st.remove_node i) r.1
  let g3 := rerouted.foldl (fun st e => (st.add_edge e.1 e.2.1 e.2.2).1) g2
  (g3, n)

/-- `PyGraph::contract_nodes` (`src/graph.rs` lines 1881-1903): dispatch on
the combine callback and the multigraph flag; with no callback on a
non-multigraph the first-encountered payload is kept. -/
def PyGraph.contract_nodes (g : PyGraph V E) (nodes : List Nat) (obj : V)
    (combo : Option (E → E → E)) : PyGraph V E × Nat :=
  match combo, g.multigraph with
  | some f, _ =>
    let r := g.graph.contract_nodes_simple nodes obj f
    ({ g with graph := r.1 }, r.2)
  | none, false =>
    let r := g.graph.contract_nodes_simple nodes obj fun w1 _ => w1
    ({ g with graph := r.1 }, r.2)
  | none, true =>
    let r := g.graph.contract_nodes_keep nodes obj
    ({ g with graph := r.1 }, r.2)

/-! ## The adjacency-matrix adapter -/

/-- A list with positions attached, starting at `b`. -/
def withIdx : List α → Nat → List (Nat × α)
  | [], _ => []
  | a :: rest, b => (b, a) :: withIdx rest (b + 1)

/-- `_from_adjacency_matrix` (`src/graph.rs` lines 2237-2280), generic over
the element type exactly as the source is generic over
`T: PartialEq + IsNan`: one node per row index with the index as payload;
for each cell `(i, j)` with `j ≥ i`, an edge `(i, j, value)` unless the
value is excluded — by the is-NaN test when `null_value` is NaN, by
equality with `null_value` otherwise.  The result is always a multigraph. -/
def _from_adjacency_matrix (isNanF : T → Bool) (beqF : T → T → Bool)
    (mat : List (List T)) (null_value : T) : PyGraph Nat T :=
  let s0 : Store Nat T := { nodes := [], edges := [] }
  let s1 := (List.range mat.length).foldl (fun s i => (s.add_node i).1) s0
  let s2 := (withIdx mat 0).foldl
    (fun s row =>
      (withIdx row.2 0).foldl
        (fun s cell =>
          if cell.1 < row.1 then s
          else if isNanF null_value then
            if isNanF cell.2 then s else (s.add_edge row.1 cell.1 cell.2).1
          else if beqF cell.2 null_value then s
          else (s.add_edge row.1 cell.1 cell.2).1) s) s1
  { graph := s2, node_removed := false, multigraph := true }

/-- The edge table the matrix adapter is expected to produce: one live edge
per upper-triangle cell (diagonal included) whose value is not excluded by
the null test, in row-major order. -/
def adjEdgeSlots (isNanF : T → Bool) (beqF : T → T → Bool)
    (mat : List (List T)) (null_value : T) : List (Option (EdgeData T)) :=
  (withIdx mat 0).flatMap fun row =>
    (withIdx row.2 0).filterMap fun cell =>
      if cell.1 < row.1 then none
      else if (if isNanF null_value then isNanF cell.2 else beqF cell.2 null_value)
      then none
      else some (some (row.1, cell.1, cell.2))

/-! ## Invariants, reachability, counters -/

/-- Does the last slot of the table hold a live entry? -/
def endsSome : List (Option α) → Bool
  | [] => false
  | [x] => x.isSome
  | _ :: x :: rest => endsSome (x :: rest)

/-- The positions of the holes of a slot table, the first slot having
position `b`. -/
def noneIdx : List (Option α) → Nat → List Nat
  | [], _ => []
  | none :: rest, b => b :: noneIdx rest (b + 1)
  | some _ :: rest, b => noneIdx rest (b + 1)

/-- Two edge data connect the same unordered node pair. -/
def sameUPair (e₁ e₂ : EdgeData E) : Prop :=
  (e₁.1 = e₂.1 ∧ e₁.2.1 = e₂.2.1) ∨ (e₁.1 = e₂.2.1 ∧ e₁.2.1 = e₂.1)

/-- At most one live edge between any unordered node pair: no two distinct
live edge slots connect the same pair. -/
def Store.noParallel (g : Store V E) : Prop :=
  ∀ i j e₁ e₂, slotAt g.edges i = some e₁ → slotAt g.edges j = some e₂ →
    i ≠ j → ¬ sameUPair e₁ e₂

/-- Container states reachable from a fresh container through the mutating
methods of `src/graph.rs` (the bulk-insertion methods are loops over
`add_node` and `_add_edge`, so their effects are covered by these steps). -/
inductive Reachable : PyGraph V E → Prop where
  | new_graph (mg : Bool) : Reachable (PyGraph.new mg)
  | add_node (g : PyGraph V E) (v : V) : Reachable g → Reachable (g.add_node v).1
  | add_edge (g : PyGraph V E) (u v : Nat) (w : E) :
      Reachable g → Reachable (g._add_edge u v w).1
  | remove_node (g : PyGraph V E) (i : Nat) (g' : PyGraph V E) :
      Reachable g → g.remove_node i = .ok g' → Reachable g'
  | remove_edge (g : PyGraph V E) (i : Nat) :
      Reachable g → Reachable (g.remove_edge_from_index i)
  | clear (g : PyGraph V E) : Reachable g → Reachable g.clear

/-- Container well-formedness for the codec round-trip: every live edge's
endpoints are live nodes (spec §3 referential integrity), and a container
that never saw a node removal (`node_removed = false`) has no node holes
(every path that frees a node slot sets the flag). -/
def PyGraph.WFb (g : PyGraph V E) : Bool :=
  (g.graph.edges.all fun s =>
    match s with
    | some e => (slotAt g.graph.nodes e.1).isSome && (slotAt g.graph.nodes e.2.1).isSome
    | none => true) &&
  (g.node_removed || g.graph.nodes.all fun s => s.isSome)

/-- Number of live self-loop edges at node `n`. -/
def Store.loop_count (g : Store V E) (n : Nat) : Nat :=
  (g.liveEdges.filter fun p => p.2.1 == n && p.2.2.1 == n).length

/-- Number of live non-loop edges incident to node `n`. -/
def Store.nonloop_count (g : Store V E) (n : Nat) : Nat :=
  (g.liveEdges.filter fun p =>
    (p.2.1 == n && p.2.2.1 != n) || (p.2.2.1 == n && p.2.1 != n)).length

/-! ## Concrete fixtures used by witnesses and counterexamples -/

/-- A container with one node hole (handle 1) and one edge hole (handle 1). -/
def exHoley : PyGraph Nat Nat :=
  { graph := { nodes := [some 5, none, some 7],
               edges := [some (0, 2, 9), none, some (2, 2, 4)] },
    node_removed := true, multigraph := true }

/-- A non-multigraph with nodes 0 and 1 after inserting `(0,1)` twice. -/
def exOverwrite : PyGraph Nat Nat :=
  (((((PyGraph.new false).add_node 0).1.add_node 1).1._add_edge 0 1 10).1._add_edge
    0 1 20).1

/-- Nodes `0..4` allocated on an empty container, then node 2 removed. -/
def exReuse : PyGraph Nat Nat :=
  { graph := { nodes := [some 0, some 1, none, some 3, some 4], edges := [] },
    node_removed := true, multigraph := true }

/-- A non-multigraph with exactly the edges `(0,2)` and `(1,2)`. -/
def exContract : PyGraph Nat Nat :=
  { graph := { nodes := [some 0, some 1, some 2],
               edges := [some (0, 2, 100), some (1, 2, 200)] },
    node_removed := false, multigraph := false }

/-- A store with two parallel edges between nodes 0 and 1 stored in opposite
orientations: edge 0 as `(0,1)` and edge 1 as `(1,0)`. -/
def exOpposite : Store Nat Nat :=
  { nodes := [some 0, some 1], edges := [some (0, 1, 5), some (1, 0, 7)] }

/-- A container with three nodes and edges `(0,1)` and `(1,2)`. -/
def exPath : PyGraph Nat Nat :=
  { graph := { nodes := [some 0, some 1, some 2],
               edges := [some (0, 1, 10), some (1, 2, 20)] },
    node_removed := false, multigraph := true }

/-- A single node carrying a single self-loop. -/
def exLoop : PyGraph Nat Nat :=
  { graph := { nodes := [some 0], edges := [some (0, 0, 3)] },
    node_removed := false, multigraph := true }

/-! ## Basic slot-table lemmas -/

@[simp]
theorem slotAt_nil (i : Nat) : slotAt ([] : List (Option α)) i = none := by
  simp [slotAt]

@[simp]
theorem slotAt_cons_zero (a : Option α) (l : List (Option α)) :
    slotAt (a :: l) 0 = a := rfl

@[simp]
theorem slotAt_cons_succ (a : Option α) (l : List (Option α)) (i : Nat) :
    slotAt (a :: l) (i + 1) = slotAt l i := rfl

theorem slotAt_of_ge_length (l : List (Option α)) (i : Nat) (h : l.length ≤ i) :
    slotAt l i = none := by
  simp [slotAt, List.getD_eq_getElem?_getD, List.getElem?_eq_none h]

theorem slotAt_append_left (l₁ l₂ : List (Option α)) (i : Nat) (h : i < l₁.length) :
    slotAt (l₁ ++ l₂) i = slotAt l₁ i := by
  simp [slotAt, List.getD_eq_getElem?_getD, List.getElem?_append_left h]

theorem slotAt_append_right (l₁ l₂ : List (Option α)) (i : Nat) (h : l₁.length ≤ i) :
    slotAt (l₁ ++ l₂) i = slotAt l₂ (i - l₁.length) := by
  simp [slotAt, List.getD_eq_getElem?_getD, List.getElem?_append_right h]

theorem slotAt_set_self (l : List (Option α)) (i : Nat) (a : Option α)
    (h : i < l.length) : slotAt (l.set i a) i = a := by
  simp [slotAt, List.getD_eq_getElem?_getD, List.getElem?_set_self, h]

theorem slotAt_set_ne (l : List (Option α)) (i j : Nat) (a : Option α)
    (h : i ≠ j) : slotAt (l.set i a) j = slotAt l j := by
  simp [slotAt, List.getD_eq_getElem?_getD, List.getElem?_set_ne h]

theorem slotAt_replicate_none (k i : Nat) :
    slotAt (List.replicate k (none : Option α)) i = none := by
  simp only [slotAt, List.getD_eq_getElem?_getD, List.getElem?_replicate]
  by_cases h : i < k <;> simp [h]

/-! ## findFreeSlot / allocSlot lemmas -/

theorem findFreeSlot_eq_none (l : List (Option α)) (h : findFreeSlot l = none) :
    ∀ i, i < l.length → (slotAt l i).isSome := by
  induction l with
  | nil => intro i hi; simp at hi
  | cons a rest ih =>
    intro i hi
    match a with
    | none => simp [findFreeSlot] at h
    | some x =>
      simp only [findFreeSlot, Option.map_eq_none'] at h
      match i with
      | 0 => simp
      | i + 1 =>
        simp only [slotAt_cons_succ]
        exact ih h i (by simpa using hi)

theorem findFreeSlot_eq_some (l : List (Option α)) (i : Nat)
    (h : findFreeSlot l = some i) :
    slotAt l i = none ∧ i < l.length ∧ ∀ j, j < i → (slotAt l j).isSome := by
  induction l generalizing i with
  | nil => simp [findFreeSlot] at h
  | cons a rest ih =>
    match a with
    | none =>
      simp only [findFreeSlot] at h
      cases h
      refine ⟨rfl, by simp, ?_⟩
      intro j hj; omega
    | some x =>
      simp only [findFreeSlot, Option.map_eq_some'] at h
      obtain ⟨i', hi', rfl⟩ := h
      obtain ⟨h1, h2, h3⟩ := ih i' hi'
      refine ⟨by simpa using h1, by simpa using h2, ?_⟩
      intro j hj
      match j with
      | 0 => simp
      | j + 1 => simpa using h3 j (by omega)

theorem allSome_findFreeSlot (l : List (Option α)) (h : ∀ x ∈ l, x.isSome) :
    findFreeSlot l = none := by
  induction l with
  | nil => rfl
  | cons a rest ih =>
    match a with
    | none => simpa using h none (by simp)
    | some x =>
      simp only [findFreeSlot, Option.map_eq_none']
      exact ih fun y hy => h y (by simp [hy])

theorem allocSlot_of_allSome (l : List (Option α)) (a : α)
    (h : ∀ x ∈ l, x.isSome) : allocSlot l a = (l ++ [some a], l.length) := by
  simp [allocSlot, allSome_findFreeSlot l h]

theorem allocSlot_length (l : List (Option α)) (a : α) :
    l.length ≤ (allocSlot l a).1.length := by
  unfold allocSlot
  cases hf : findFreeSlot l <;> simp

/-! ## trimSlots / slotBound / endsSome lemmas -/

@[simp]
theorem trimSlots_nil : trimSlots ([] : List (Option α)) = [] := rfl

theorem trimSlots_append_some (l : List (Option α)) (a : α) :
    trimSlots (l ++ [some a]) = l ++ [some a] := by
  simp [trimSlots, List.dropWhile]

theorem trimSlots_append_none (l : List (Option α)) :
    trimSlots (l ++ [(none : Option α)]) = trimSlots l := by
  simp [trimSlots, List.dropWhile]

theorem trimSlots_allSome (l : List (Option α)) (h : ∀ x ∈ l, x.isSome) :
    trimSlots l = l := by
  induction l using List.reverseRecOn with
  | nil => rfl
  | append_singleton l a ih =>
    match a with
    | none =>
      have := h none (by simp)
      simp at this
    | some x => exact trimSlots_append_some l x

theorem exists_trim_decomp (l : List (Option α)) :
    ∃ k, l = trimSlots l ++ List.replicate k (none : Option α) := by
  induction l using List.reverseRecOn with
  | nil => exact ⟨0, rfl⟩
  | append_singleton l a ih =>
    match a with
    | some x => exact ⟨0, by simp [trimSlots_append_some]⟩
    | none =>
      obtain ⟨k, hk⟩ := ih
      refine ⟨k + 1, ?_⟩
      rw [trimSlots_append_none]
      rw [List.replicate_succ' (n := k)]
      rw [← List.append_assoc, ← hk]

theorem endsSome_append_some (l : List (Option α)) (a : α) :
    endsSome (l ++ [some a]) = true := by
  induction l with
  | nil => rfl
  | cons b rest ih =>
    match rest with
    | [] => simp [endsSome]
    | c :: rest' => simpa [endsSome] using ih

theorem endsSome_trimSlots (l : List (Option α)) :
    trimSlots l = [] ∨ endsSome (trimSlots l) = true := by
  induction l using List.reverseRecOn with
  | nil => exact Or.inl rfl
  | append_singleton l a ih =>
    match a with
    | none => rw [trimSlots_append_none]; exact ih
    | some x =>
      right
      rw [trimSlots_append_some]
      exact endsSome_append_some l x

theorem slotAt_trimSlots (l : List (Option α)) (i : Nat) :
    slotAt (trimSlots l) i = slotAt l i := by
  obtain ⟨k, hk⟩ := exists_trim_decomp l
  by_cases h : i < (trimSlots l).length
  · conv_rhs => rw [hk]
    rw [slotAt_append_left _ _ _ h]
  · push_neg at h
    rw [slotAt_of_ge_length _ _ h]
    conv_rhs => rw [hk]
    rw [slotAt_append_right _ _ _ h, slotAt_replicate_none]

theorem trimSlots_idem (l : List (Option α)) :
    trimSlots (trimSlots l) = trimSlots l := by
  induction l using List.reverseRecOn with
  | nil => rfl
  | append_singleton l a ih =>
    match a with
    | some x => rw [trimSlots_append_some, trimSlots_append_some]
    | none => rw [trimSlots_append_none, ih]

theorem slotBound_trimSlots_eq (l : List (Option α)) :
    slotBound (trimSlots l) = slotBound l := by
  rw [slotBound, trimSlots_idem]; rfl

theorem endsSome_cons_of_ne (a : Option α) (l : List (Option α)) (h : l ≠ []) :
    endsSome (a :: l) = endsSome l := by
  match l with
  | [] => exact absurd rfl h
  | b :: rest => rfl

theorem endsSome_append_none (l : List (Option α)) :
    endsSome (l ++ [(none : Option α)]) = false := by
  induction l with
  | nil => rfl
  | cons b rest ih =>
    rw [List.cons_append, endsSome_cons_of_ne _ _ (by simp), ih]

theorem trimSlots_of_endsSome (l : List (Option α)) (h : endsSome l = true) :
    trimSlots l = l := by
  induction l using List.reverseRecOn with
  | nil => simp [endsSome] at h
  | append_singleton l a ih =>
    match a with
    | some x => exact trimSlots_append_some l x
    | none => rw [endsSome_append_none] at h; exact absurd h (by simp)

theorem slotBound_allSome (l : List (Option α)) (h : ∀ x ∈ l, x.isSome) :
    slotBound l = l.length := by
  rw [slotBound, trimSlots_allSome l h]

theorem allSome_slotAt (l : List (Option α)) (h : ∀ x ∈ l, x.isSome)
    (i : Nat) (hi : i < l.length) : (slotAt l i).isSome := by
  have : slotAt l i = l[i] := by
    simp [slotAt, List.getD_eq_getElem?_getD, List.getElem?_eq_getElem hi]
  rw [this]
  exact h _ (List.getElem_mem hi)

theorem slotAt_eq_getElem (l : List (Option α)) (i : Nat) (hi : i < l.length) :
    slotAt l i = l[i] := by
  simp [slotAt, List.getD_eq_getElem?_getD, List.getElem?_eq_getElem hi]

theorem slotAt_ext (l₁ l₂ : List (Option α)) (hlen : l₁.length = l₂.length)
    (h : ∀ i, slotAt l₁ i = slotAt l₂ i) : l₁ = l₂ := by
  apply List.ext_getElem hlen
  intro i h₁ h₂
  have := h i
  rwa [slotAt_eq_getElem _ _ h₁, slotAt_eq_getElem _ _ h₂] at this

/-! ## Claim C3 -/

/-- Claim C3: For every container with at least one freed node slot, the next
`allocate_node` call returns the lowest freed slot's handle rather than
extending the bound; in particular, on an empty container, after allocating
nodes 0 through 4 and then removing node 2, the next allocated node receives
handle 2. -/
theorem add_node_reuses_lowest_freed_slot (g : Store V E) (v : V)
    (h : ∃ j, j < g.nodes.length ∧ slotAt g.nodes j = none) :
    (slotAt g.nodes (g.add_node v).2 = none ∧
      (∀ j, j < (g.add_node v).2 → (slotAt g.nodes j).isSome) ∧
      (g.add_node v).1.nodes.length = g.nodes.length) ∧
    ((((List.range 5).foldl (fun gg i => (gg.add_node i).1)
        (PyGraph.new true : PyGraph Nat Nat)).remove_node 2 = .ok exReuse) ∧
      (exReuse.add_node 99).2 = 2) := by
  constructor
  · obtain ⟨j, hj, hnone⟩ := h
    cases hf : findFreeSlot g.nodes with
    | none =>
      have := findFreeSlot_eq_none g.nodes hf j hj
      rw [hnone] at this
      simp at this
    | some i =>
      obtain ⟨h1, h2, h3⟩ := findFreeSlot_eq_some g.nodes i hf
      refine ⟨?_, ?_, ?_⟩
      · simpa [Store.add_node, allocSlot, hf] using h1
      · intro j' hj'
        exact h3 j' (by simpa [Store.add_node, allocSlot, hf] using hj')
      · simp [Store.add_node, allocSlot, hf]
  · exact ⟨by decide, by decide⟩

/-- Witness for C3 at a container with a freed slot at handle 2. -/
theorem add_node_reuses_lowest_freed_slot_witness :
    (∃ j, j < exReuse.graph.nodes.length ∧ slotAt exReuse.graph.nodes j = none) ∧
    (slotAt exReuse.graph.nodes (exReuse.graph.add_node 99).2 = none ∧
      (∀ j, j < (exReuse.graph.add_node 99).2 →
        (slotAt exReuse.graph.nodes j).isSome) ∧
      (exReuse.graph.add_node 99).1.nodes.length = exReuse.graph.nodes.length) :=
  ⟨⟨2, by decide, by decide⟩,
    (add_node_reuses_lowest_freed_slot exReuse.graph 99 ⟨2, by decide, by decide⟩).1⟩

/-! ## Claim C8 -/

/-- Claim C8: After `clear()` the container is empty (no live nodes or
edges) and the holes-ever-existed flag reports `true`, so the state encoded
after a clear carries `nodes_removed = true` and the codec's fast no-holes
decode path is never taken for it. -/
theorem clear_marks_holes (g : PyGraph V E) :
    g.clear.graph.node_count = 0 ∧ g.clear.graph.edge_count = 0 ∧
    g.clear.node_removed = true ∧ g.clear.getstate.nodes_removed = true :=
  ⟨rfl, rfl, rfl, rfl⟩

/-! ## Claim C10 -/

/-- Claim C10: `remove_node` unconditionally sets the holes-ever-existed
flag `node_removed`, even when the handle is absent; in the absent case all
other container state (store and multigraph flag) is unchanged. -/
theorem remove_node_sets_flag_even_absent :
    (∀ (g : PyGraph V E) (i : Nat) (g' : PyGraph V E),
      g.remove_node i = .ok g' → g'.node_removed = true) ∧
    (∀ (g : PyGraph V E) (i : Nat), slotAt g.graph.nodes i = none →
      g.remove_node i = .ok { g with node_removed := true }) := by
  constructor
  · intro g i g' h
    simp only [PyGraph.remove_node, Except.ok.injEq] at h
    rw [← h]
  · intro g i h
    simp only [PyGraph.remove_node, Except.ok.injEq]
    have : g.graph.remove_node i = g.graph := by
      rw [Store.remove_node, h]
      simp
    rw [this]

/-- Witness for C10: removing the absent handle 7 from a concrete container
is a no-op apart from the flag. -/
theorem remove_node_sets_flag_even_absent_witness :
    slotAt exPath.graph.nodes 7 = none ∧
    exPath.remove_node 7 = .ok { exPath with node_removed := true } :=
  ⟨by decide, remove_node_sets_flag_even_absent.2 exPath 7 (by decide)⟩

/-! ## Claim C6 -/

theorem remove_edges_from_append (g : PyGraph V E) (l₁ l₂ : List (Nat × Nat)) :
    g.remove_edges_from (l₁ ++ l₂) =
      match g.remove_edges_from l₁ with
      | (g₁, none) => g₁.remove_edges_from l₂
      | (g₁, some e) => (g₁, some e) := by
  induction l₁ generalizing g with
  | nil => rfl
  | cons p rest ih =>
    obtain ⟨u, v⟩ := p
    simp only [List.cons_append, PyGraph.remove_edges_from]
    cases g.graph.find_edge u v with
    | none => rfl
    | some idx => exact ih _

/-- Claim C6: `remove_node` with an absent handle is a silent no-op on the
store and does not raise, whereas `remove_edges_from`, on reaching a node
pair with no live edge, fails with `NoEdgeBetweenNodes` there while the
removals of the earlier entries remain in place (no rollback). -/
theorem removal_tolerance_contrast :
    (∀ (g : PyGraph V E) (i : Nat), slotAt g.graph.nodes i = none →
      ∃ g', g.remove_node i = .ok g' ∧ g'.graph = g.graph) ∧
    (∀ (g g₁ : PyGraph V E) (l₁ : List (Nat × Nat)) (u v : Nat)
        (l₂ : List (Nat × Nat)),
      g.remove_edges_from l₁ = (g₁, none) →
      g₁.graph.find_edge u v = none →
      g.remove_edges_from (l₁ ++ (u, v) :: l₂) =
        (g₁, some PyErr.noEdgeBetweenNodes)) := by
  constructor
  · intro g i h
    refine ⟨{ g with node_removed := true }, ?_, rfl⟩
    simp only [PyGraph.remove_node, Except.ok.injEq]
    have : g.graph.remove_node i = g.graph := by
      rw [Store.remove_node, h]; simp
    rw [this]
  · intro g g₁ l₁ u v l₂ h1 h2
    rw [remove_edges_from_append, h1]
    simp only [PyGraph.remove_edges_from, h2]

/-- Witness for C6: on a concrete container, an absent-node removal keeps the
store intact, and a bulk edge-removal list hitting a missing pair stops with
`NoEdgeBetweenNodes` after the earlier removal took effect. -/
theorem removal_tolerance_contrast_witness :
    (∃ g', exPath.remove_node 9 = .ok g' ∧ g'.graph = exPath.graph) ∧
    exPath.remove_edges_from ([(0, 1)] ++ (0, 2) :: [(1, 2)]) =
      ((⟨⟨[some 0, some 1, some 2], [none, some (1, 2, 20)]⟩, false, true⟩ :
        PyGraph Nat Nat), some PyErr.noEdgeBetweenNodes) :=
  ⟨removal_tolerance_contrast.1 exPath 9 (by decide),
    removal_tolerance_contrast.2 exPath _ [(0, 1)] 0 2 [(1, 2)] (by decide)
      (by decide)⟩

/-! ## Claim C9 -/

theorem degree_foldl_split (l : List (Nat × EdgeData E)) (c : Nat) :
    l.foldl (fun count p => if p.2.1 == p.2.2.1 then count + 2 else count + 1) c =
      c + 2 * (l.filter fun p => p.2.1 == p.2.2.1).length +
        (l.filter fun p => !(p.2.1 == p.2.2.1)).length := by
  induction l generalizing c with
  | nil => simp
  | cons p rest ih =>
    by_cases h : p.2.1 = p.2.2.1
    · simp only [List.foldl_cons, List.filter_cons, h]
      rw [ih]
      simp
      omega
    · have hb : (p.2.1 == p.2.2.1) = false := by simp [h]
      simp only [List.foldl_cons, List.filter_cons, hb]
      rw [ih]
      simp
      omega

theorem length_filter_or_disjoint (l : List α) (p q : α → Bool)
    (h : ∀ a ∈ l, ¬(p a = true ∧ q a = true)) :
    (l.filter fun a => p a || q a).length =
      (l.filter p).length + (l.filter q).length := by
  induction l with
  | nil => simp
  | cons a rest ih =>
    have hrest := ih fun b hb => h b (by simp [hb])
    cases hp : p a with
    | true =>
      have hq : q a = false := by
        cases hq' : q a with
        | true => exact absurd ⟨hp, hq'⟩ (h a (by simp))
        | false => rfl
      simp [List.filter_cons, hp, hq, hrest]
      omega
    | false =>
      cases hq : q a with
      | true =>
        simp [List.filter_cons, hp, hq, hrest]
        omega
      | false => simp [List.filter_cons, hp, hq, hrest]

theorem loops_in_source_part (l : List (Nat × EdgeData E)) (n : Nat) :
    ((l.filter fun p => p.2.1 == n).filter fun p => p.2.1 == p.2.2.1) =
      l.filter fun p => p.2.1 == n && p.2.2.1 == n := by
  induction l with
  | nil => rfl
  | cons a rest ih =>
    simp only [List.filter_cons]
    by_cases h1 : a.2.1 = n
    · by_cases h2 : a.2.2.1 = n
      · have h3 : (a.2.1 == a.2.2.1) = true := by simp [h1, h2]
        simp [h1, h2, h3, List.filter_cons, ih]
      · have h3 : (a.2.1 == a.2.2.1) = false := by
          simp only [beq_eq_false_iff_ne, ne_eq]
          intro hc
          exact h2 (hc.symm.trans h1)
        simp [h1, h2, h3, List.filter_cons, ih]
        exact fun hc => h2 hc.symm
    · simp [h1, ih]

theorem nonloops_in_source_part (l : List (Nat × EdgeData E)) (n : Nat) :
    ((l.filter fun p => p.2.1 == n).filter fun p => !(p.2.1 == p.2.2.1)) =
      l.filter fun p => p.2.1 == n && p.2.2.1 != n := by
  induction l with
  | nil => rfl
  | cons a rest ih =>
    simp only [List.filter_cons]
    by_cases h1 : a.2.1 = n
    · by_cases h2 : a.2.2.1 = n
      · have h3 : (a.2.1 == a.2.2.1) = true := by simp [h1, h2]
        simp [h1, h2, h3, List.filter_cons, ih]
      · have h3 : (a.2.1 == a.2.2.1) = false := by
          simp only [beq_eq_false_iff_ne, ne_eq]
          intro hc
          exact h2 (hc.symm.trans h1)
        simp [h1, h2, h3, List.filter_cons, ih]
        exact fun hc => h2 hc.symm
    · simp [h1, ih]

theorem loops_in_target_part (l : List (Nat × EdgeData E)) (n : Nat) :
    (((l.filter fun p => p.2.2.1 == n && p.2.1 != n).map
        fun p => (p.1, (p.2.2.1, p.2.1, p.2.2.2))).filter
      fun p => p.2.1 == p.2.2.1) = [] := by
  induction l with
  | nil => rfl
  | cons a rest ih =>
    simp only [List.filter_cons]
    by_cases h1 : a.2.2.1 = n ∧ a.2.1 ≠ n
    · have hb : (a.2.2.1 == n && a.2.1 != n) = true := by
        simp [h1.1, h1.2]
      have hloop : (a.2.2.1 == a.2.1) = false := by
        simp only [beq_eq_false_iff_ne, ne_eq]
        intro hc
        exact h1.2 (hc.symm.trans h1.1)
      simp [hb, List.map_cons, List.filter_cons, hloop, ih]
    · have hb : (a.2.2.1 == n && a.2.1 != n) = false := by
        rcases not_and_or.mp h1 with h | h
        · simp [h]
        · have : a.2.1 = n := not_not.mp h
          simp [this]
      simp [hb, ih]

theorem nonloops_in_target_part (l : List (Nat × EdgeData E)) (n : Nat) :
    (((l.filter fun p => p.2.2.1 == n && p.2.1 != n).map
        fun p => (p.1, (p.2.2.1, p.2.1, p.2.2.2))).filter
      fun p => !(p.2.1 == p.2.2.1)) =
      (l.filter fun p => p.2.2.1 == n && p.2.1 != n).map
        fun p => (p.1, (p.2.2.1, p.2.1, p.2.2.2)) := by
  induction l with
  | nil => rfl
  | cons a rest ih =>
    by_cases h1 : a.2.2.1 = n ∧ a.2.1 ≠ n
    · have hb : (a.2.2.1 == n && a.2.1 != n) = true := by
        simp [h1.1, h1.2]
      have hloop : (a.2.2.1 == a.2.1) = false := by
        simp only [beq_eq_false_iff_ne, ne_eq]
        intro hc
        exact h1.2 (hc.symm.trans h1.1)
      simp [List.filter_cons, hb, List.map_cons, hloop, ih]
    · have hb : (a.2.2.1 == n && a.2.1 != n) = false := by
        rcases not_and_or.mp h1 with h | h
        · simp [h]
        · have : a.2.1 = n := not_not.mp h
          simp [this]
      simp [List.filter_cons, hb, ih]

/-- Claim C9: `degree` counts each self-loop edge as 2 and each other
incident edge as 1; in particular a node with a single self-loop and no
other incident edges reports degree 2. -/
theorem degree_counts_self_loops_twice :
    (∀ (g : PyGraph V E) (n : Nat),
      g.degree n = 2 * g.graph.loop_count n + g.graph.nonloop_count n) ∧
    exLoop.degree 0 = 2 := by
  constructor
  · intro g n
    rw [PyGraph.degree, degree_foldl_split, Store.edgesOf]
    simp only [List.filter_append, List.length_append, Nat.zero_add]
    rw [loops_in_source_part, loops_in_target_part, nonloops_in_source_part,
      nonloops_in_target_part]
    rw [Store.loop_count, Store.nonloop_count, length_filter_or_disjoint]
    · simp
    · intro a _
      rintro ⟨h1, h2⟩
      simp only [Bool.and_eq_true, beq_iff_eq, bne_iff_ne, ne_eq] at h1 h2
      exact h2.2 h1.1
  · decide

/-! ## Claim C5 -/

theorem liveEdgesFrom_mem_ge (l : List (Option (EdgeData E))) (b : Nat) :
    ∀ p ∈ liveEdgesFrom l b, b ≤ p.1 := by
  induction l generalizing b with
  | nil => intro p hp; simp [liveEdgesFrom] at hp
  | cons a rest ih =>
    intro p hp
    match a with
    | none =>
      have := ih (b + 1) p (by simpa [liveEdgesFrom] using hp)
      omega
    | some e =>
      simp only [liveEdgesFrom, List.mem_cons] at hp
      rcases hp with rfl | hp
      · exact Nat.le_refl b
      · have := ih (b + 1) p hp
        omega

theorem liveEdgesFrom_nodup_fst (l : List (Option (EdgeData E))) (b : Nat) :
    ((liveEdgesFrom l b).map Prod.fst).Nodup := by
  induction l generalizing b with
  | nil => simp [liveEdgesFrom]
  | cons a rest ih =>
    match a with
    | none => simpa [liveEdgesFrom] using ih (b + 1)
    | some e =>
      simp only [liveEdgesFrom, List.map_cons, List.nodup_cons]
      refine ⟨?_, ih (b + 1)⟩
      intro hmem
      obtain ⟨p, hp, hfst⟩ := List.mem_map.mp hmem
      have := liveEdgesFrom_mem_ge rest (b + 1) p hp
      omega

theorem liveEdgesFrom_mem_slot (l : List (Option (EdgeData E))) (b : Nat) :
    ∀ p ∈ liveEdgesFrom l b, slotAt l (p.1 - b) = some p.2 := by
  induction l generalizing b with
  | nil => intro p hp; simp [liveEdgesFrom] at hp
  | cons a rest ih =>
    intro p hp
    match a with
    | none =>
      have h := ih (b + 1) p (by simpa [liveEdgesFrom] using hp)
      have hge := liveEdgesFrom_mem_ge rest (b + 1) p
        (by simpa [liveEdgesFrom] using hp)
      have : p.1 - b = (p.1 - (b + 1)) + 1 := by omega
      rw [this, slotAt_cons_succ]
      exact h
    | some e =>
      simp only [liveEdgesFrom, List.mem_cons] at hp
      rcases hp with rfl | hp
      · simp
      · have h := ih (b + 1) p hp
        have hge := liveEdgesFrom_mem_ge rest (b + 1) p hp
        have : p.1 - b = (p.1 - (b + 1)) + 1 := by omega
        rw [this, slotAt_cons_succ]
        exact h

theorem nodup_fst_of_filter (l : List (Nat × β)) (p : Nat × β → Bool)
    (h : (l.map Prod.fst).Nodup) : ((l.filter p).map Prod.fst).Nodup := by
  have hsub : (l.filter p).Sublist l := List.filter_sublist l
  exact (hsub.map Prod.fst).nodup h

theorem count_le_one_of_nodup (l : List Nat) (h : l.Nodup) (e : Nat) :
    l.count e ≤ 1 := by
  exact List.nodup_iff_count_le_one.mp h e

theorem in_edge_stored_target (g : Store V E) (n : Nat) :
    ∀ p ∈ g.in_edges_of n, p.2.2.1 = n := by
  intro p hp
  have := List.of_mem_filter hp
  simpa using this

theorem mem_in_pairs_of_self (g : Store V E) (n : Nat) (p : Nat × EdgeData E)
    (hp : p ∈ g.in_edges_of n) : (p.2.1, p.2.2.1) ∈ g.in_pairs_of n := by
  exact List.mem_map.mpr ⟨p, hp, rfl⟩

theorem edgesOf_entry_shape (g : Store V E) (n : Nat) :
    ∀ p ∈ g.edgesOf n, p.2.1 = n ∧
      ((p.1, p.2) ∈ g.liveEdges ∨ (p.1, (p.2.2.1, p.2.1, p.2.2.2)) ∈ g.liveEdges) := by
  intro p hp
  rw [Store.edgesOf] at hp
  rcases List.mem_append.mp hp with h | h
  · have hmem := List.mem_of_mem_filter h
    have hcond := List.of_mem_filter h
    simp only [beq_iff_eq] at hcond
    exact ⟨hcond, Or.inl hmem⟩
  · obtain ⟨q, hq, rfl⟩ := List.mem_map.mp h
    have hmem := List.mem_of_mem_filter hq
    have hcond := List.of_mem_filter hq
    simp only [Bool.and_eq_true, beq_iff_eq, bne_iff_ne, ne_eq] at hcond
    exact ⟨hcond.1, Or.inr hmem⟩

theorem liveEdges_functional (g : Store V E) (i : Nat) (a b : EdgeData E)
    (ha : (i, a) ∈ g.liveEdges) (hb : (i, b) ∈ g.liveEdges) : a = b := by
  have h1 := liveEdgesFrom_mem_slot g.edges 0 (i, a) ha
  have h2 := liveEdgesFrom_mem_slot g.edges 0 (i, b) hb
  simp only [Nat.sub_zero] at h1 h2
  rw [h1] at h2
  exact (Option.some.injEq _ _).mp h2

theorem edgesOf_nodup_fst (g : Store V E) (n : Nat) :
    ((g.edgesOf n).map Prod.fst).Nodup := by
  rw [Store.edgesOf, List.map_append]
  apply List.Nodup.append
  · exact nodup_fst_of_filter _ _ (liveEdgesFrom_nodup_fst g.edges 0)
  · rw [List.map_map]
    have : (Prod.fst ∘ fun p : Nat × EdgeData E =>
        (p.1, (p.2.2.1, p.2.1, p.2.2.2))) = Prod.fst := rfl
    rw [this]
    exact nodup_fst_of_filter _ _ (liveEdgesFrom_nodup_fst g.edges 0)
  · intro i hi1 hi2
    obtain ⟨p, hp, rfl⟩ := List.mem_map.mp hi1
    rw [List.map_map] at hi2
    obtain ⟨q, hq, hfst⟩ := List.mem_map.mp hi2
    have hpl := List.mem_of_mem_filter hp
    have hpc := List.of_mem_filter hp
    have hql := List.mem_of_mem_filter hq
    have hqc := List.of_mem_filter hq
    simp only [beq_iff_eq] at hpc
    simp only [Bool.and_eq_true, beq_iff_eq, bne_iff_ne, ne_eq] at hqc
    simp only [Function.comp] at hfst
    have hq1 : q.1 = p.1 := hfst
    have : (p.1, p.2) ∈ g.liveEdges := hpl
    have hql' : (p.1, q.2) ∈ g.liveEdges := by
      rw [← hq1]
      exact hql
    have := liveEdges_functional g p.1 p.2 q.2 this hql'
    rw [← this] at hqc
    exact hqc.2 hpc

theorem in_not_in_out (g : Store V E) (n : Nat) (p : Nat × EdgeData E)
    (hp : p ∈ g.in_edges_of n) : p.1 ∉ (g.out_edges_of n).map Prod.fst := by
  intro hmem
  obtain ⟨q, hq, hfst⟩ := List.mem_map.mp hmem
  have hqe := List.mem_of_mem_filter hq
  have hqtest := List.of_mem_filter hq
  simp at hqtest
  have hpl : (p.1, p.2) ∈ g.liveEdges := List.mem_of_mem_filter hp
  have hptgt : p.2.2.1 = n := in_edge_stored_target g n p hp
  have hppair : (p.2.1, p.2.2.1) ∈ g.in_pairs_of n := mem_in_pairs_of_self g n p hp
  obtain ⟨hqsrc, hqcase⟩ := edgesOf_entry_shape g n q hqe
  rcases hqcase with hcase | hcase
  · have hq2 : q.2 = p.2 := by
      apply liveEdges_functional g q.1 q.2 p.2 hcase
      rw [hfst]
      exact hpl
    apply hqtest
    rw [hq2]
    have hp1 : p.2.1 = n := by rw [← hq2, hqsrc]
    rw [hptgt, hp1] at hppair
    rw [show p.2.2.1 = n from hptgt, show p.2.1 = n from hp1]
    exact hppair
  · have hq2 : (q.2.2.1, q.2.1, q.2.2.2) = p.2 := by
      apply liveEdges_functional g q.1 _ p.2 hcase
      rw [hfst]
      exact hpl
    apply hqtest
    have h1 : q.2.2.1 = p.2.1 := by
      have := congrArg (fun e : EdgeData E => e.1) hq2
      simpa using this
    have h2 : q.2.1 = p.2.2.1 := by
      have := congrArg (fun e : EdgeData E => e.2.1) hq2
      simpa using this
    rw [h1, h2]
    exact hppair

/-- Counterexample to C5 as stated: on a multigraph holding two parallel
edges between nodes 0 and 1 stored in opposite orientations (edge 0 as
`(0,1)`, edge 1 as `(1,0)`), edge 1 is live and incident to node 1, yet it
appears in neither the incoming nor the outgoing collection of
`substitute_node_with_subgraph`'s partition for node 1 — it is processed
zero times, not exactly once. -/
theorem substitute_partition_misses_opposite_parallel :
    slotAt exOpposite.edges 1 = some (1, 0, 7) ∧
    touchesNode 1 ((1, 0, 7) : EdgeData Nat) = true ∧
    ((exOpposite.in_edges_of 1 ++ exOpposite.out_edges_of 1).map
      Prod.fst).count 1 = 0 := by
  decide

/-- Claim C5 (amended): in `substitute_node_with_subgraph` every edge
incident to the substituted node is processed at most once — the outgoing
collection excludes every edge whose endpoint pair was captured by the
incoming collection, so no edge is re-processed from the opposite
direction; an outgoing-oriented edge parallel in the opposite orientation
to an incoming edge is excluded entirely and never processed. -/
theorem substitute_partition_at_most_once :
    (∀ (g : Store V E) (n e : Nat),
      ((g.in_edges_of n ++ g.out_edges_of n).map Prod.fst).count e ≤ 1) ∧
    (∀ (g : Store V E) (n : Nat) (p : Nat × EdgeData E),
      p ∈ g.out_edges_of n → (p.2.2.1, p.2.1) ∉ g.in_pairs_of n) := by
  constructor
  · intro g n e
    rw [List.map_append, List.count_append]
    have hin : ((g.in_edges_of n).map Prod.fst).Nodup :=
      nodup_fst_of_filter _ _ (liveEdgesFrom_nodup_fst g.edges 0)
    have hout : ((g.out_edges_of n).map Prod.fst).Nodup := by
      have hsub : (g.out_edges_of n).Sublist (g.edgesOf n) :=
        List.filter_sublist _
      exact (hsub.map Prod.fst).nodup (edgesOf_nodup_fst g n)
    by_cases hmem : e ∈ (g.in_edges_of n).map Prod.fst
    · obtain ⟨p, hp, rfl⟩ := List.mem_map.mp hmem
      have : p.1 ∉ (g.out_edges_of n).map Prod.fst := in_not_in_out g n p hp
      rw [List.count_eq_zero.mpr this]
      have := count_le_one_of_nodup _ hin p.1
      omega
    · rw [List.count_eq_zero.mpr hmem]
      have := count_le_one_of_nodup _ hout e
      omega
  · intro g n p hp
    have := List.of_mem_filter hp
    simpa using this

/-- Witness for the amended C5 on a concrete container: the processed-id
count is at most one, and a concrete outgoing edge's pair is not among the
incoming pairs. -/
theorem substitute_partition_at_most_once_witness :
    (((exPath.graph.in_edges_of 1 ++ exPath.graph.out_edges_of 1).map
      Prod.fst).count 0 ≤ 1) ∧
    ((1, (1, 2, 20)) ∈ exPath.graph.out_edges_of 1 ∧
      ((2, 1) ∉ exPath.graph.in_pairs_of 1)) :=
  ⟨substitute_partition_at_most_once.1 exPath.graph 1 0,
    by decide,
    substitute_partition_at_most_once.2 exPath.graph 1 (1, (1, 2, 20))
      (by decide)⟩

/-! ## Claim C2 -/

theorem findEdgeAux_eq_none (u v : Nat) (l : List (Option (EdgeData E)))
    (h : Store.findEdgeAux u v l = none) :
    ∀ i e, slotAt l i = some e → matchPair u v e = false := by
  induction l with
  | nil => intro i e hi; simp at hi
  | cons a rest ih =>
    intro i e hi
    match a with
    | none =>
      simp only [Store.findEdgeAux, Option.map_eq_none'] at h
      match i with
      | 0 => simp at hi
      | i + 1 => exact ih h i e (by simpa using hi)
    | some e' =>
      by_cases hm : matchPair u v e' = true
      · simp [Store.findEdgeAux, hm] at h
      · simp only [Store.findEdgeAux, if_neg hm, Option.map_eq_none'] at h
        match i with
        | 0 =>
          simp only [slotAt_cons_zero, Option.some.injEq] at hi
          rw [← hi]
          simpa using hm
        | i + 1 => exact ih h i e (by simpa using hi)

theorem findEdgeAux_eq_some (u v : Nat) (l : List (Option (EdgeData E)))
    (i : Nat) (h : Store.findEdgeAux u v l = some i) :
    ∃ e, slotAt l i = some e ∧ matchPair u v e = true := by
  induction l generalizing i with
  | nil => simp [Store.findEdgeAux] at h
  | cons a rest ih =>
    match a with
    | none =>
      simp only [Store.findEdgeAux, Option.map_eq_some'] at h
      obtain ⟨i', hi', rfl⟩ := h
      obtain ⟨e, he, hm⟩ := ih i' hi'
      exact ⟨e, by simpa using he, hm⟩
    | some e' =>
      by_cases hm : matchPair u v e' = true
      · simp only [Store.findEdgeAux, if_pos hm, Option.some.injEq] at h
        exact ⟨e', by rw [← h]; simp, hm⟩
      · simp only [Store.findEdgeAux, if_neg hm, Option.map_eq_some'] at h
        obtain ⟨i', hi', rfl⟩ := h
        obtain ⟨e, he, hme⟩ := ih i' hi'
        exact ⟨e, by simpa using he, hme⟩

theorem sameUPair_iff_matchPair (u v : Nat) (w : E) (e : EdgeData E) :
    sameUPair e (u, v, w) ↔ matchPair u v e = true := by
  simp [sameUPair, matchPair]

theorem sameUPair_comm (e₁ e₂ : EdgeData E) :
    sameUPair e₁ e₂ ↔ sameUPair e₂ e₁ := by
  unfold sameUPair
  constructor
  · rintro (⟨h1, h2⟩ | ⟨h1, h2⟩)
    · exact Or.inl ⟨h1.symm, h2.symm⟩
    · exact Or.inr ⟨h2.symm, h1.symm⟩
  · rintro (⟨h1, h2⟩ | ⟨h1, h2⟩)
    · exact Or.inl ⟨h1.symm, h2.symm⟩
    · exact Or.inr ⟨h2.symm, h1.symm⟩

theorem sameUPair_payload_irrel (a b : Nat) (w w' : E) (x : EdgeData E) :
    sameUPair (a, b, w) x ↔ sameUPair (a, b, w') x := Iff.rfl

theorem noParallel_mono (s s' : Store V E)
    (h : ∀ i e, slotAt s'.edges i = some e → slotAt s.edges i = some e)
    (hnp : s.noParallel) : s'.noParallel := by
  intro i j e₁ e₂ h1 h2 hij
  exact hnp i j e₁ e₂ (h i e₁ h1) (h j e₂ h2) hij

theorem slotAt_map_kill (n : Nat) (l : List (Option (EdgeData E))) (i : Nat) :
    slotAt (l.map fun s =>
      match s with
      | some e => if touchesNode n e then none else some e
      | none => none) i =
      match slotAt l i with
      | some e => if touchesNode n e then none else some e
      | none => none := by
  induction l generalizing i with
  | nil => simp
  | cons a rest ih =>
    match i with
    | 0 => simp
    | i + 1 => simpa using ih i

theorem remove_node_noParallel (s : Store V E) (n : Nat) (hnp : s.noParallel) :
    (s.remove_node n).noParallel := by
  rw [Store.remove_node]
  by_cases h : (slotAt s.nodes n).isSome
  · rw [if_pos h]
    apply noParallel_mono s
    · intro i e hi
      rw [slotAt_map_kill] at hi
      cases he : slotAt s.edges i with
      | none => rw [he] at hi; simp at hi
      | some e' =>
        rw [he] at hi
        by_cases ht : touchesNode n e' = true
        · simp [ht] at hi
        · simp only [Bool.not_eq_true] at ht
          simp [ht] at hi
          rw [hi]
    · exact hnp
  · rw [if_neg h]; exact hnp

theorem remove_edge_noParallel (s : Store V E) (n : Nat) (hnp : s.noParallel) :
    (s.remove_edge n).noParallel := by
  rw [Store.remove_edge]
  by_cases h : (slotAt s.edges n).isSome
  · rw [if_pos h]
    apply noParallel_mono s
    · intro i e hi
      by_cases hin : n = i
      · subst hin
        by_cases hlen : n < s.edges.length
        · rw [slotAt_set_self _ _ _ hlen] at hi; simp at hi
        · rw [List.set_eq_of_length_le (by omega)] at hi
          exact hi
      · rwa [slotAt_set_ne _ _ _ _ hin] at hi
    · exact hnp
  · rw [if_neg h]; exact hnp

theorem slotAt_some_lt_length (l : List (Option α)) (i : Nat) (e : α)
    (h : slotAt l i = some e) : i < l.length := by
  by_contra hc
  push_neg at hc
  rw [slotAt_of_ge_length l i hc] at h
  exact Option.noConfusion h

theorem insert_new_noParallel (s : Store V E) (u v : Nat) (w : E)
    (hfind : s.find_edge u v = none) (hnp : s.noParallel) :
    (s.add_edge u v w).1.noParallel := by
  have hno := findEdgeAux_eq_none u v s.edges hfind
  rw [Store.add_edge]
  intro i j e₁ e₂ h1 h2 hij
  simp only at h1 h2
  unfold allocSlot at h1 h2
  cases hf : findFreeSlot s.edges with
  | some k =>
    rw [hf] at h1 h2
    simp only at h1 h2
    obtain ⟨hknone, hklen, _⟩ := findFreeSlot_eq_some s.edges k hf
    by_cases hik : i = k
    · subst hik
      rw [slotAt_set_self _ _ _ hklen] at h1
      have hjk : j ≠ i := fun hc => hij hc.symm
      rw [slotAt_set_ne _ _ _ _ (fun hc => hij hc)] at h2
      cases h1
      intro hsp
      rw [sameUPair_comm, sameUPair_iff_matchPair] at hsp
      rw [hno j e₂ h2] at hsp
      exact Bool.noConfusion hsp
    · rw [slotAt_set_ne _ _ _ _ (fun hc => hik hc.symm)] at h1
      by_cases hjk : j = k
      · subst hjk
        rw [slotAt_set_self _ _ _ hklen] at h2
        cases h2
        intro hsp
        rw [sameUPair_iff_matchPair] at hsp
        rw [hno i e₁ h1] at hsp
        exact Bool.noConfusion hsp
      · rw [slotAt_set_ne _ _ _ _ (fun hc => hjk hc.symm)] at h2
        exact hnp i j e₁ e₂ h1 h2 hij
  | none =>
    rw [hf] at h1 h2
    simp only at h1 h2
    by_cases hik : i = s.edges.length
    · subst hik
      rw [slotAt_append_right _ _ _ (Nat.le_refl _)] at h1
      simp at h1
      by_cases hjlt : j < s.edges.length
      · rw [slotAt_append_left _ _ _ hjlt] at h2
        cases h1
        intro hsp
        rw [sameUPair_comm, sameUPair_iff_matchPair] at hsp
        rw [hno j e₂ h2] at hsp
        exact Bool.noConfusion hsp
      · push_neg at hjlt
        rw [slotAt_append_right _ _ _ hjlt] at h2
        have : j - s.edges.length ≠ 0 := by
          intro hc
          have hje : j = s.edges.length := by omega
          exact hij hje.symm
        match hj : j - s.edges.length, this with
        | k + 1, _ =>
          rw [hj] at h2
          simp at h2
    · by_cases hilt : i < s.edges.length
      · rw [slotAt_append_left _ _ _ hilt] at h1
        by_cases hjk : j = s.edges.length
        · subst hjk
          rw [slotAt_append_right _ _ _ (Nat.le_refl _)] at h2
          simp at h2
          cases h2
          intro hsp
          rw [sameUPair_iff_matchPair] at hsp
          rw [hno i e₁ h1] at hsp
          exact Bool.noConfusion hsp
        · by_cases hjlt : j < s.edges.length
          · rw [slotAt_append_left _ _ _ hjlt] at h2
            exact hnp i j e₁ e₂ h1 h2 hij
          · push_neg at hjlt
            rw [slotAt_append_right _ _ _ hjlt] at h2
            have : j - s.edges.length ≠ 0 := fun hc => hjk (by omega)
            match hj : j - s.edges.length, this with
            | k + 1, _ =>
              rw [hj] at h2
              simp at h2
      · push_neg at hilt
        rw [slotAt_append_right _ _ _ hilt] at h1
        have : i - s.edges.length ≠ 0 := fun hc => hik (by omega)
        match hi2 : i - s.edges.length, this with
        | k + 1, _ =>
          rw [hi2] at h1
          simp at h1

theorem update_payload_noParallel (s : Store V E) (idx : Nat) (e : EdgeData E)
    (w : E) (he : slotAt s.edges idx = some e) (hnp : s.noParallel) :
    Store.noParallel { s with edges := s.edges.set idx (some (e.1, e.2.1, w)) } := by
  have hlen := slotAt_some_lt_length s.edges idx e he
  intro i j e₁ e₂ h1 h2 hij
  simp only at h1 h2
  by_cases hik : i = idx
  · subst hik
    rw [slotAt_set_self _ _ _ hlen] at h1
    rw [slotAt_set_ne _ _ _ _ (fun hc => hij hc)] at h2
    cases h1
    exact fun hsp => hnp i j e e₂ he h2 hij hsp
  · rw [slotAt_set_ne _ _ _ _ (fun hc => hik hc.symm)] at h1
    by_cases hjk : j = idx
    · rw [hjk] at h2 hij
      rw [slotAt_set_self _ _ _ hlen] at h2
      cases h2
      exact fun hsp => hnp i idx e₁ e h1 he hij hsp
    · rw [slotAt_set_ne _ _ _ _ (fun hc => hjk hc.symm)] at h2
      exact hnp i j e₁ e₂ h1 h2 hij

theorem _add_edge_multigraph (g : PyGraph V E) (u v : Nat) (w : E) :
    (g._add_edge u v w).1.multigraph = g.multigraph := by
  rw [PyGraph._add_edge]
  cases hmg : g.multigraph with
  | true => simp
  | false =>
    simp only [Bool.not_false, if_true]
    split
    · split
      · rfl
      · exact hmg
    · rfl

theorem reachable_non_multigraph_inv (g : PyGraph V E) (h : Reachable g) :
    g.multigraph = false → g.graph.noParallel := by
  induction h with
  | new_graph mg =>
    intro _ i j e₁ e₂ h1 _ _
    simp [PyGraph.new] at h1
  | add_node g v hg ih =>
    intro hm
    exact ih hm
  | add_edge g u v w hg ih =>
    intro hm
    have hmg : g.multigraph = false := by
      rw [← _add_edge_multigraph g u v w]; exact hm
    have hnp := ih hmg
    rw [PyGraph._add_edge, hmg]
    simp only [Bool.not_false, if_true]
    split
    next idx heq1 =>
      split
      next e heq2 => exact update_payload_noParallel g.graph idx e w heq2 hnp
      next heq2 => exact hnp
    next heq1 => exact insert_new_noParallel g.graph u v w heq1 hnp
  | remove_node g i g' hg hok ih =>
    intro hm
    simp only [PyGraph.remove_node, Except.ok.injEq] at hok
    subst hok
    exact remove_node_noParallel g.graph i (ih hm)
  | remove_edge g i hg ih =>
    intro hm
    exact remove_edge_noParallel g.graph i (ih hm)
  | clear g hg ih =>
    intro _ i j e₁ e₂ h1 _ _
    simp [PyGraph.clear] at h1

/-- Claim C2: on a container constructed with `multigraph = false`, every
reachable state has at most one edge between any unordered node pair; an
insertion between an already-connected pair overwrites the existing edge's
payload and returns the existing edge's handle; and in particular inserting
`(0,1)` twice on a fresh non-multigraph leaves exactly one edge between 0
and 1, carrying the second payload. -/
theorem non_multigraph_overwrites_parallel_insert :
    (∀ g : PyGraph V E, Reachable g → g.multigraph = false →
      g.graph.noParallel) ∧
    (∀ (g : PyGraph V E) (u v : Nat) (w : E) (idx : Nat) (e : EdgeData E),
      g.multigraph = false → g.graph.find_edge u v = some idx →
      slotAt g.graph.edges idx = some e →
      (g._add_edge u v w).2 = idx ∧
      slotAt (g._add_edge u v w).1.graph.edges idx = some (e.1, e.2.1, w) ∧
      ∀ j, j ≠ idx →
        slotAt (g._add_edge u v w).1.graph.edges j = slotAt g.graph.edges j) ∧
    ((exOverwrite.graph.liveEdges.filter fun p => matchPair 0 1 p.2).length = 1 ∧
      slotAt exOverwrite.graph.edges 0 = some (0, 1, 20) ∧
      ((((((PyGraph.new false : PyGraph Nat Nat).add_node 0).1.add_node 1).1._add_edge
        0 1 10).1)._add_edge 0 1 20).2 = 0) := by
  refine ⟨reachable_non_multigraph_inv, ?_, by decide, by decide, by decide⟩
  intro g u v w idx e hmg hf hsl
  rw [PyGraph._add_edge, hmg]
  simp only [Bool.not_false, if_true]
  split
  next idx' heq1 =>
    rw [hf] at heq1
    have hidx : idx' = idx := by
      exact ((Option.some.injEq _ _).mp heq1).symm
    subst hidx
    split
    next e' heq2 =>
      rw [hsl] at heq2
      have he : e' = e := ((Option.some.injEq _ _).mp heq2).symm
      subst he
      have hlen := slotAt_some_lt_length g.graph.edges idx' e' hsl
      refine ⟨rfl, ?_, ?_⟩
      · simpa using slotAt_set_self g.graph.edges idx' (some (e'.1, e'.2.1, w)) hlen
      · intro j hj
        simpa using slotAt_set_ne g.graph.edges idx' j (some (e'.1, e'.2.1, w))
          (fun hc => hj hc.symm)
    next heq2 =>
      rw [hsl] at heq2
      exact Option.noConfusion heq2
  next heq1 =>
    rw [hf] at heq1
    exact Option.noConfusion heq1

/-- Witness for C2: the invariant and the overwrite behaviour applied to the
concretely built non-multigraph with two insertions between 0 and 1. -/
theorem non_multigraph_overwrites_parallel_insert_witness :
    ((((((PyGraph.new false : PyGraph Nat Nat).add_node 0).1.add_node 1).1._add_edge
        0 1 10).1)._add_edge 0 1 20).1.graph.noParallel ∧
    (((((PyGraph.new false : PyGraph Nat Nat).add_node 0).1.add_node 1).1._add_edge
        0 1 10).1._add_edge 0 1 20).2 = 0 :=
  ⟨non_multigraph_overwrites_parallel_insert.1 _
      (Reachable.add_edge _ 0 1 20 (Reachable.add_edge _ 0 1 10
        (Reachable.add_node _ 1 (Reachable.add_node _ 0
          (Reachable.new_graph false))))) rfl,
    (non_multigraph_overwrites_parallel_insert.2.1
      ((((PyGraph.new false : PyGraph Nat Nat).add_node 0).1.add_node 1).1._add_edge
        0 1 10).1 0 1 20 0 (0, 1, 10) rfl (by decide) (by decide)).1⟩

/-! ## Claim C4 -/

/-- Claim C4: on a non-multigraph with exactly the edges `(0,2)` and
`(1,2)`, contracting `{0,1}` into a new node with no combine function
yields the new handle 3 and exactly one live edge between 3 and 2 (the two
re-routed edges collide and are merged, keeping the first payload), not
two. -/
theorem contract_collapses_to_single_edge :
    (exContract.contract_nodes [0, 1] 99 none).2 = 3 ∧
    ((exContract.contract_nodes [0, 1] 99 none).1.graph.liveEdges.filter
      fun p => matchPair 3 2 p.2).length = 1 ∧
    (exContract.contract_nodes [0, 1] 99 none).1.graph.edge_count = 1 ∧
    slotAt (exContract.contract_nodes [0, 1] 99 none).1.graph.edges 0 =
      some (3, 2, 100) := by
  decide

/-! ## Claim C7 -/

theorem foldl_add_node_range (k : Nat) (f : Nat → V) :
    ∀ s : Store V E, (∀ x ∈ s.nodes, x.isSome) →
      (List.range k).foldl (fun s i => (s.add_node (f i)).1) s =
        { s with nodes := s.nodes ++ (List.range k).map fun i => some (f i) } := by
  induction k with
  | zero => intro s _; simp
  | succ k ih =>
    intro s hs
    rw [List.range_succ, List.foldl_append, ih s hs]
    simp only [List.foldl_cons, List.foldl_nil]
    have hall : ∀ x ∈ s.nodes ++ (List.range k).map fun i => some (f i),
        x.isSome := by
      intro x hx
      rcases List.mem_append.mp hx with h | h
      · exact hs x h
      · obtain ⟨i, _, rfl⟩ := List.mem_map.mp h
        rfl
    rw [Store.add_node]
    simp only [allocSlot_of_allSome _ _ hall]
    simp [List.map_append, List.append_assoc]

theorem filterMap_cells_allSome (isNanF : T → Bool) (beqF : T → T → Bool)
    (nv : T) (i : Nat) (l : List (Nat × T)) :
    ∀ x ∈ (l.filterMap fun cell =>
      if cell.1 < i then none
      else if (if isNanF nv then isNanF cell.2 else beqF cell.2 nv) then
        none
      else some (some ((i, cell.1, cell.2) : EdgeData T))), x.isSome := by
  intro x hx
  obtain ⟨c, _, hc⟩ := List.mem_filterMap.mp hx
  by_cases h1 : c.1 < i
  · simp [h1] at hc
  · by_cases h2 : (if isNanF nv then isNanF c.2 else beqF c.2 nv) = true
    · simp [h1, h2] at hc
    · simp only [if_neg h1, if_neg h2, Option.some.injEq] at hc
      rw [← hc]
      rfl

theorem inner_cells_fold (isNanF : T → Bool) (beqF : T → T → Bool) (nv : T)
    (i : Nat) (l : List (Nat × T)) :
    ∀ s : Store Nat T, (∀ x ∈ s.edges, x.isSome) →
      l.foldl (fun s cell =>
        if cell.1 < i then s
        else if isNanF nv then
          if isNanF cell.2 then s else (s.add_edge i cell.1 cell.2).1
        else if beqF cell.2 nv then s
        else (s.add_edge i cell.1 cell.2).1) s =
      { s with edges := s.edges ++ l.filterMap fun cell =>
          if cell.1 < i then none
          else if (if isNanF nv then isNanF cell.2 else beqF cell.2 nv) then
            none
          else some (some (i, cell.1, cell.2)) } := by
  induction l with
  | nil => intro s _; simp
  | cons c rest ih =>
    intro s hs
    simp only [List.foldl_cons, List.filterMap_cons]
    by_cases h1 : c.1 < i
    · rw [if_pos h1, if_pos h1, ih s hs]
    · rw [if_neg h1, if_neg h1]
      by_cases h2 : (if isNanF nv then isNanF c.2 else beqF c.2 nv) = true
      · have hskip : (if isNanF nv then
            if isNanF c.2 then s else (s.add_edge i c.1 c.2).1
          else if beqF c.2 nv then s
          else (s.add_edge i c.1 c.2).1) = s := by
          by_cases hn : isNanF nv = true
          · rw [if_pos hn]
            rw [if_pos hn] at h2
            rw [if_pos h2]
          · rw [if_neg hn]
            rw [if_neg hn] at h2
            rw [if_pos h2]
        rw [hskip, if_pos h2, ih s hs]
      · have hadd : (if isNanF nv then
            if isNanF c.2 then s else (s.add_edge i c.1 c.2).1
          else if beqF c.2 nv then s
          else (s.add_edge i c.1 c.2).1) = (s.add_edge i c.1 c.2).1 := by
          by_cases hn : isNanF nv = true
          · rw [if_pos hn]
            rw [if_pos hn] at h2
            rw [if_neg h2]
          · rw [if_neg hn]
            rw [if_neg hn] at h2
            rw [if_neg h2]
        rw [hadd, if_neg h2]
        have hse : (s.add_edge i c.1 c.2).1 =
            { s with edges := s.edges ++ [some (i, c.1, c.2)] } := by
          rw [Store.add_edge]
          simp only [allocSlot_of_allSome _ _ hs]
        rw [hse]
        rw [ih _ (by
          intro x hx
          rcases List.mem_append.mp hx with h | h
          · exact hs x h
          · simp at h
            rw [h]
            rfl)]
        simp

theorem rows_fold_edges (isNanF : T → Bool) (beqF : T → T → Bool) (nv : T)
    (rows : List (Nat × List T)) :
    ∀ s : Store Nat T, (∀ x ∈ s.edges, x.isSome) →
      rows.foldl (fun s row =>
        (withIdx row.2 0).foldl (fun s cell =>
          if cell.1 < row.1 then s
          else if isNanF nv then
            if isNanF cell.2 then s else (s.add_edge row.1 cell.1 cell.2).1
          else if beqF cell.2 nv then s
          else (s.add_edge row.1 cell.1 cell.2).1) s) s =
      { s with edges := s.edges ++ rows.flatMap fun row =>
          (withIdx row.2 0).filterMap fun cell =>
            if cell.1 < row.1 then none
            else if (if isNanF nv then isNanF cell.2 else beqF cell.2 nv) then
              none
            else some (some (row.1, cell.1, cell.2)) } := by
  induction rows with
  | nil => intro s _; simp
  | cons r rest ih =>
    intro s hs
    simp only [List.foldl_cons, List.flatMap_cons]
    rw [inner_cells_fold isNanF beqF nv r.1 (withIdx r.2 0) s hs]
    rw [ih _ (by
      intro x hx
      rcases List.mem_append.mp hx with h | h
      · exact hs x h
      · exact filterMap_cells_allSome isNanF beqF nv r.1 (withIdx r.2 0) x h)]
    simp

/-- Claim C7: for every square numeric matrix and null value, the matrix
adapter allocates one node per row index with the index as payload, and its
edge table holds exactly one edge `(i, j, value)` per cell with `j ≥ i`
whose value is not excluded — by the is-NaN test when the null value is NaN,
by equality with the null value otherwise — diagonal cells giving
self-loops; the result is always a multigraph with no removals recorded. -/
theorem from_adjacency_matrix_characterisation (isNanF : T → Bool)
    (beqF : T → T → Bool) (mat : List (List T)) (nv : T)
    (hsq : ∀ row ∈ mat, row.length = mat.length) :
    (_from_adjacency_matrix isNanF beqF mat nv).graph.nodes =
      ((List.range mat.length).map fun i => some i) ∧
    (_from_adjacency_matrix isNanF beqF mat nv).graph.edges =
      adjEdgeSlots isNanF beqF mat nv ∧
    (_from_adjacency_matrix isNanF beqF mat nv).multigraph = true ∧
    (_from_adjacency_matrix isNanF beqF mat nv).node_removed = false := by
  have h1 : (List.range mat.length).foldl (fun s i => (s.add_node i).1)
      ({ nodes := [], edges := [] } : Store Nat T) =
      { nodes := (List.range mat.length).map fun i => some i, edges := [] } :=
    foldl_add_node_range (E := T) mat.length (fun i => i) _ (by simp)
  have h2 : (withIdx mat 0).foldl (fun s row =>
      (withIdx row.2 0).foldl (fun s cell =>
        if cell.1 < row.1 then s
        else if isNanF nv then
          if isNanF cell.2 then s else (s.add_edge row.1 cell.1 cell.2).1
        else if beqF cell.2 nv then s
        else (s.add_edge row.1 cell.1 cell.2).1) s)
      ({ nodes := (List.range mat.length).map fun i => some i, edges := [] } :
        Store Nat T) =
      { nodes := (List.range mat.length).map fun i => some i,
        edges := adjEdgeSlots isNanF beqF mat nv } :=
    rows_fold_edges isNanF beqF nv (withIdx mat 0) _ (by simp)
  have hmain : (_from_adjacency_matrix isNanF beqF mat nv).graph =
      { nodes := (List.range mat.length).map fun i => some i,
        edges := adjEdgeSlots isNanF beqF mat nv } := by
    simp only [_from_adjacency_matrix]
    rw [h1]
    exact h2
  exact ⟨by rw [hmain], by rw [hmain], rfl, rfl⟩

/-- Witness for C7 on a concrete 2x2 symmetric integer matrix with null
value 0. -/
theorem from_adjacency_matrix_characterisation_witness :
    (∀ row ∈ ([[(0 : Int), 5], [5, 0]] : List (List Int)),
      row.length = ([[(0 : Int), 5], [5, 0]] : List (List Int)).length) ∧
    (_from_adjacency_matrix (fun _ => false) (fun a b => a == b)
        ([[(0 : Int), 5], [5, 0]]) 0).graph.edges =
      adjEdgeSlots (fun _ => false) (fun a b => a == b)
        ([[(0 : Int), 5], [5, 0]]) 0 :=
  ⟨by decide,
    (from_adjacency_matrix_characterisation (fun _ => false)
      (fun a b => a == b) ([[(0 : Int), 5], [5, 0]]) 0 (by decide)).2.1⟩

/-! ## Claim C1: support lemmas -/

theorem allNone_slotAt (l : List (Option α)) (h : ∀ x ∈ l, x = none)
    (i : Nat) : slotAt l i = none := by
  induction l generalizing i with
  | nil => simp
  | cons a rest ih =>
    match i with
    | 0 => exact h a (by simp)
    | i + 1 =>
      simp only [slotAt_cons_succ]
      exact ih (fun x hx => h x (by simp [hx])) i

theorem trimSlots_allNone (l : List (Option α)) (h : ∀ x ∈ l, x = none) :
    trimSlots l = [] := by
  induction l using List.reverseRecOn with
  | nil => rfl
  | append_singleton l a ih =>
    have ha : a = none := h a (by simp)
    subst ha
    rw [trimSlots_append_none]
    exact ih fun x hx => h x (by simp [hx])

theorem slotAt_append_none_all (l : List (Option α)) (i : Nat) :
    slotAt (l ++ [(none : Option α)]) i = slotAt l i := by
  by_cases h : i < l.length
  · exact slotAt_append_left _ _ _ h
  · push_neg at h
    rw [slotAt_append_right _ _ _ h, slotAt_of_ge_length _ _ h]
    match hd : i - l.length with
    | 0 => rfl
    | k + 1 => simp

theorem slotAt_replicate_lt (k i : Nat) (a : α) (h : i < k) :
    slotAt (List.replicate k (some a) : List (Option α)) i = some a := by
  induction k generalizing i with
  | zero => omega
  | succ k ih =>
    match i with
    | 0 => simp [List.replicate_succ]
    | i + 1 =>
      rw [List.replicate_succ]
      simpa using ih i (by omega)

theorem slotAt_map_lt (l : List (Option α)) (f : Option α → Option β)
    (i : Nat) (h : i < l.length) : slotAt (l.map f) i = f (l[i]) := by
  rw [slotAt_eq_getElem _ _ (by simpa using h)]
  simp

theorem encN_append (l₁ l₂ : List (Option V)) :
    ∀ b, encN (l₁ ++ l₂) b = encN l₁ b ++ encN l₂ (b + l₁.length) := by
  induction l₁ with
  | nil => intro b; simp [encN]
  | cons a rest ih =>
    intro b
    have harith : b + 1 + rest.length = b + (rest.length + 1) := by omega
    match a with
    | none =>
      simp only [List.cons_append, encN, ih (b + 1), List.length_cons, harith,
        List.append_eq]
    | some w =>
      simp only [List.cons_append, encN, ih (b + 1), List.length_cons, harith,
        List.append_eq, List.cons_append]

theorem encN_replicate_none (k : Nat) :
    ∀ b, encN (List.replicate k (none : Option V)) b = [] := by
  induction k with
  | zero => intro b; rfl
  | succ k ih =>
    intro b
    rw [List.replicate_succ]
    exact ih (b + 1)

theorem encN_trim (l : List (Option V)) (b : Nat) :
    encN l b = encN (trimSlots l) b := by
  obtain ⟨k, hk⟩ := exists_trim_decomp l
  conv_lhs => rw [hk]
  rw [encN_append, encN_replicate_none, List.append_nil]

theorem encN_eq_nil (l : List (Option V)) :
    ∀ b, encN l b = [] ↔ ∀ x ∈ l, x = none := by
  induction l with
  | nil => intro b; simp [encN]
  | cons a rest ih =>
    intro b
    match a with
    | none => simpa [encN] using ih (b + 1)
    | some w => simp [encN]

theorem endsSome_allNone_false (l : List (Option α))
    (h : ∀ x ∈ l, x = none) : l = [] ∨ endsSome l = false := by
  induction l using List.reverseRecOn with
  | nil => exact Or.inl rfl
  | append_singleton l' y ih =>
    right
    have hy : y = none := h y (by simp)
    subst hy
    exact endsSome_append_none l'

theorem encN_singleton (l : List (Option V)) :
    ∀ b H w, endsSome l = true → encN l b = [(H, w)] →
      l = List.replicate (H - b) none ++ [some w] ∧ b ≤ H := by
  induction l with
  | nil => intro b H w hend _; simp [endsSome] at hend
  | cons a rest ih =>
    intro b H w hend henc
    match a with
    | some w' =>
      simp only [encN, List.cons.injEq, Prod.mk.injEq] at henc
      obtain ⟨⟨rfl, rfl⟩, hrest⟩ := henc
      match rest, hend, hrest with
      | [], _, _ => simp
      | x :: rest', hend, hrest =>
        exfalso
        rw [endsSome_cons_of_ne _ _ (by simp)] at hend
        have hall := (encN_eq_nil (x :: rest') (b + 1)).mp hrest
        rcases endsSome_allNone_false (x :: rest') hall with hnil | hfalse
        · exact List.noConfusion hnil
        · rw [hend] at hfalse
          exact Bool.noConfusion hfalse
    | none =>
      match rest, hend, henc with
      | [], hend, _ => exact absurd hend (by simp [endsSome])
      | x :: rest', hend, henc =>
        rw [endsSome_cons_of_ne _ _ (by simp)] at hend
        simp only [encN] at henc
        obtain ⟨hrec, hble⟩ := ih (b + 1) H w hend henc
        constructor
        · have : H - b = (H - (b + 1)) + 1 := by omega
          rw [this, List.replicate_succ, hrec]
          simp
        · omega

theorem noneIdx_mem_ge (l : List (Option α)) :
    ∀ b, ∀ t ∈ noneIdx l b, b ≤ t ∧ t < b + l.length := by
  induction l with
  | nil => intro b t ht; simp [noneIdx] at ht
  | cons a rest ih =>
    intro b t ht
    match a with
    | none =>
      simp only [noneIdx, List.mem_cons] at ht
      rcases ht with rfl | ht
      · simp
      · have := ih (b + 1) t ht
        constructor <;> [omega; {simp only [List.length_cons]; omega}]
    | some w =>
      have := ih (b + 1) t (by simpa [noneIdx] using ht)
      constructor <;> [omega; {simp only [List.length_cons]; omega}]

theorem noneIdx_nodup (l : List (Option α)) : ∀ b, (noneIdx l b).Nodup := by
  induction l with
  | nil => intro b; simp [noneIdx]
  | cons a rest ih =>
    intro b
    match a with
    | none =>
      simp only [noneIdx, List.nodup_cons]
      refine ⟨?_, ih (b + 1)⟩
      intro hmem
      have := (noneIdx_mem_ge rest (b + 1) b hmem).1
      omega
    | some w => exact ih (b + 1)

theorem mem_noneIdx (l : List (Option α)) :
    ∀ b i, i ∈ noneIdx l b ↔ b ≤ i ∧ i - b < l.length ∧ slotAt l (i - b) = none := by
  induction l with
  | nil => intro b i; simp [noneIdx]
  | cons a rest ih =>
    intro b i
    match a with
    | none =>
      simp only [noneIdx, List.mem_cons, ih (b + 1) i]
      constructor
      · rintro (rfl | ⟨h1, h2, h3⟩)
        · refine ⟨Nat.le_refl _, by simp, by simp⟩
        · refine ⟨by omega, ?_, ?_⟩
          · simp only [List.length_cons]; omega
          · have : i - b = (i - (b + 1)) + 1 := by omega
            rw [this, slotAt_cons_succ]
            exact h3
      · rintro ⟨h1, h2, h3⟩
        by_cases hib : i = b
        · exact Or.inl hib
        · right
          have hgt : b + 1 ≤ i := by omega
          refine ⟨hgt, ?_, ?_⟩
          · simp only [List.length_cons] at h2; omega
          · have : i - b = (i - (b + 1)) + 1 := by omega
            rw [this, slotAt_cons_succ] at h3
            exact h3
    | some w =>
      simp only [noneIdx, ih (b + 1) i]
      constructor
      · rintro ⟨h1, h2, h3⟩
        refine ⟨by omega, ?_, ?_⟩
        · simp only [List.length_cons]; omega
        · have : i - b = (i - (b + 1)) + 1 := by omega
          rw [this, slotAt_cons_succ]
          exact h3
      · rintro ⟨h1, h2, h3⟩
        by_cases hib : i = b
        · subst hib
          simp at h3
        · have hgt : b + 1 ≤ i := by omega
          refine ⟨hgt, ?_, ?_⟩
          · simp only [List.length_cons] at h2; omega
          · have : i - b = (i - (b + 1)) + 1 := by omega
            rw [this, slotAt_cons_succ] at h3
            exact h3

theorem allocSlot_slot_none (l : List (Option α)) (a : α) :
    slotAt l (allocSlot l a).2 = none := by
  unfold allocSlot
  cases hf : findFreeSlot l with
  | some j =>
    simp only
    exact (findFreeSlot_eq_some l j hf).1
  | none =>
    simp only
    exact slotAt_of_ge_length l l.length (Nat.le_refl _)

theorem allocSlot_slot_self (l : List (Option α)) (a : α) :
    slotAt (allocSlot l a).1 (allocSlot l a).2 = some a := by
  unfold allocSlot
  cases hf : findFreeSlot l with
  | some j =>
    simp only
    exact slotAt_set_self l j (some a) (findFreeSlot_eq_some l j hf).2.1
  | none =>
    simp only
    rw [slotAt_append_right _ _ _ (Nat.le_refl _)]
    simp

theorem alloc_then_clear (l : List (Option α)) (a : α) :
    (allocSlot l a).1.set (allocSlot l a).2 none = l ∨
      (allocSlot l a).1.set (allocSlot l a).2 none = l ++ [none] := by
  unfold allocSlot
  cases hf : findFreeSlot l with
  | some j =>
    left
    obtain ⟨hnone, hlen, _⟩ := findFreeSlot_eq_some l j hf
    simp only
    apply slotAt_ext
    · simp
    · intro i
      by_cases hij : j = i
      · subst hij
        rw [slotAt_set_self _ _ _ (by simpa using hlen), hnone]
      · rw [slotAt_set_ne _ _ _ _ hij, slotAt_set_ne _ _ _ _ hij]
  | none =>
    right
    simp only
    apply slotAt_ext
    · simp
    · intro i
      by_cases hlt : i < l.length
      · rw [slotAt_set_ne _ _ _ _ (by omega), slotAt_append_left _ _ _ hlt,
          slotAt_append_left _ _ _ hlt]
      · push_neg at hlt
        by_cases heq : i = l.length
        · subst heq
          rw [slotAt_set_self _ _ _ (by simp), slotAt_append_right _ _ _ hlt]
          simp
        · rw [slotAt_set_ne _ _ _ _ (by omega), slotAt_append_right _ _ _ hlt,
            slotAt_append_right _ _ _ hlt]
          have : i - l.length ≠ 0 := by omega
          match hd : i - l.length, this with
          | k + 1, _ => simp

theorem padLoop_allSome [Inhabited V] (fuel : Nat) :
    ∀ (s : Store V E) (tmps : List Nat) (next : Nat),
      (∀ x ∈ s.nodes, x.isSome) → next - s.nodes.length ≤ fuel →
      padLoop fuel s tmps next =
        ({ s with nodes := s.nodes ++
            List.replicate (next - s.nodes.length) (some default) },
          tmps ++ List.range' s.nodes.length (next - s.nodes.length)) := by
  induction fuel with
  | zero =>
    intro s tmps next hs hf
    have h0 : next - s.nodes.length = 0 := by omega
    rw [h0]
    simp [padLoop]
  | succ fuel ih =>
    intro s tmps next hs hf
    rw [padLoop]
    by_cases hlt : slotBound s.nodes < next
    · rw [if_pos hlt]
      rw [slotBound_allSome s.nodes hs] at hlt
      have hadd : s.add_node (default : V) =
          ({ s with nodes := s.nodes ++ [some default] }, s.nodes.length) := by
        rw [Store.add_node]
        simp only [allocSlot_of_allSome _ _ hs]
      rw [hadd]
      simp only
      rw [ih _ _ next (by
          intro x hx
          rcases List.mem_append.mp hx with h | h
          · exact hs x h
          · simp at h; rw [h]; rfl)
        (by simp only [List.length_append, List.length_cons,
          List.length_nil]; omega)]
      have hk : next - s.nodes.length = (next - (s.nodes.length + 1)) + 1 := by
        omega
      rw [hk]
      simp [List.replicate_succ, List.range'_succ, List.append_assoc]
    · rw [if_neg hlt]
      rw [slotBound_allSome s.nodes hs] at hlt
      have h0 : next - s.nodes.length = 0 := by omega
      rw [h0]
      simp

theorem buildLoop_spec [Inhabited V] (tns : List (Option V)) :
    ∀ (b : Nat) (s : Store V E) (tmps : List Nat),
      (∀ x ∈ s.nodes, x.isSome) → s.nodes.length ≤ b → endsSome tns = true →
      buildLoop (encN tns b) s tmps =
        ({ s with nodes := s.nodes ++
            List.replicate (b - s.nodes.length) (some default) ++
            tns.map fun x => some (x.getD default) },
          tmps ++ List.range' s.nodes.length (b - s.nodes.length) ++
            noneIdx tns b) := by
  induction tns with
  | nil =>
    intro b s tmps _ _ hend
    simp [endsSome] at hend
  | cons a rest ih =>
    intro b s tmps hs hlen hend
    match a with
    | some w =>
      simp only [encN, buildLoop]
      rw [padLoop_allSome b s tmps b hs (by omega)]
      simp only
      have hs' : ∀ x ∈ s.nodes ++
          List.replicate (b - s.nodes.length) (some (default : V)), x.isSome := by
        intro x hx
        rcases List.mem_append.mp hx with h | h
        · exact hs x h
        · rw [List.eq_of_mem_replicate h]; rfl
      have hadd : Store.add_node
          ({ s with nodes := s.nodes ++
            List.replicate (b - s.nodes.length) (some default) }) w =
          ({ s with nodes := (s.nodes ++
            List.replicate (b - s.nodes.length) (some default)) ++ [some w] },
            (s.nodes ++
              List.replicate (b - s.nodes.length) (some default)).length) := by
        rw [Store.add_node]
        simp only [allocSlot_of_allSome _ _ hs']
      rw [hadd]
      simp only
      have hlen2 : ((s.nodes ++
          List.replicate (b - s.nodes.length) (some (default : V))) ++
            [some w]).length = b + 1 := by
        simp only [List.length_append, List.length_replicate, List.length_cons,
          List.length_nil]
        omega
      match rest, hend with
      | [], _ =>
        simp only [encN, buildLoop, noneIdx]
        simp [List.append_assoc]
      | x :: rest', hend =>
        rw [endsSome_cons_of_ne _ _ (by simp)] at hend
        rw [ih (b + 1) _ _ (by
            intro y hy
            rcases List.mem_append.mp hy with h | h
            · exact hs' y h
            · simp at h; rw [h]; rfl)
          (by rw [hlen2]) hend]
        rw [hlen2]
        simp only [Nat.sub_self, List.replicate_zero, List.range'_zero,
          List.append_nil]
        simp only [noneIdx, List.map_cons]
        simp [List.append_assoc]
    | none =>
      match rest, hend with
      | [], hend => simp [endsSome] at hend
      | x :: rest', hend =>
        rw [endsSome_cons_of_ne _ _ (by simp)] at hend
        simp only [encN]
        rw [ih (b + 1) s tmps hs (by omega) hend]
        have hk : b + 1 - s.nodes.length = (b - s.nodes.length) + 1 := by
          omega
        rw [hk, List.replicate_succ']
        have hrange : List.range' s.nodes.length (b - s.nodes.length + 1) =
            List.range' s.nodes.length (b - s.nodes.length) ++ [b] := by
          rw [List.range'_concat]
          have hb : s.nodes.length + 1 * (b - s.nodes.length) = b := by omega
          rw [hb]
        rw [hrange]
        simp only [noneIdx, List.map_cons]
        simp [List.append_assoc]

theorem remove_fold_store (ts : List Nat) :
    ∀ s : Store V E, s.edges = [] → ts.Nodup →
      (∀ t ∈ ts, (slotAt s.nodes t).isSome) →
      ts.foldl (fun st t => st.remove_node t) s =
        { nodes := ts.foldl (fun ns t => ns.set t none) s.nodes, edges := [] } := by
  induction ts with
  | nil =>
    intro s hse _ _
    simp only [List.foldl_nil]
    exact (Store.mk.injEq _ _ _ _).mpr ⟨rfl, hse⟩ |>.symm ▸ rfl
  | cons t rest ih =>
    intro s hse hnd hlive
    simp only [List.foldl_cons]
    have hlt : (slotAt s.nodes t).isSome := hlive t (by simp)
    have hrm : s.remove_node t =
        { nodes := s.nodes.set t none, edges := [] } := by
      rw [Store.remove_node, if_pos hlt, hse]
      rfl
    rw [hrm]
    apply ih
    · rfl
    · exact (List.nodup_cons.mp hnd).2
    · intro t' ht'
      have hne : t ≠ t' := by
        intro hc
        exact (List.nodup_cons.mp hnd).1 (hc ▸ ht')
      rw [slotAt_set_ne _ _ _ _ hne]
      exact hlive t' (by simp [ht'])

theorem set_fold_length (ts : List Nat) :
    ∀ ns : List (Option V),
      (ts.foldl (fun ns t => ns.set t none) ns).length = ns.length := by
  induction ts with
  | nil => intro ns; rfl
  | cons t rest ih =>
    intro ns
    simp only [List.foldl_cons]
    rw [ih]
    simp

theorem set_fold_slotAt (ts : List Nat) :
    ∀ (ns : List (Option V)) (i : Nat),
      slotAt (ts.foldl (fun ns t => ns.set t none) ns) i =
        if i ∈ ts then none else slotAt ns i := by
  induction ts with
  | nil => intro ns i; simp
  | cons t rest ih =>
    intro ns i
    simp only [List.foldl_cons]
    rw [ih]
    by_cases hr : i ∈ rest
    · simp [hr]
    · by_cases hit : i = t
      · subst hit
        simp only [hr, if_neg hr, List.mem_cons, true_or, if_pos]
        by_cases hlen : i < ns.length
        · exact slotAt_set_self ns i none hlen
        · push_neg at hlen
          rw [List.set_eq_of_length_le (by omega)]
          exact slotAt_of_ge_length ns i hlen
      · have : i ∈ t :: rest ↔ False := by simp [hit, hr]
        rw [if_neg hr, if_neg (by simp [hit, hr])]
        exact slotAt_set_ne ns t i none fun hc => hit hc.symm

theorem fold_addnode_encN (l : List (Option V)) :
    ∀ (b : Nat) (s : Store V E), (∀ x ∈ l, x.isSome) →
      (∀ x ∈ s.nodes, x.isSome) →
      (encN l b).foldl (fun s p => (s.add_node p.2).1) s =
        { s with nodes := s.nodes ++ l } := by
  induction l with
  | nil => intro b s _ _; simp [encN]
  | cons a rest ih =>
    intro b s hl hs
    match a with
    | none =>
      have := hl none (by simp)
      simp at this
    | some w =>
      simp only [encN, List.foldl_cons]
      have hadd : (s.add_node w).1 = { s with nodes := s.nodes ++ [some w] } := by
        rw [Store.add_node]
        simp only [allocSlot_of_allSome _ _ hs]
      rw [hadd]
      rw [ih (b + 1) _ (fun x hx => hl x (by simp [hx])) (by
        intro x hx
        rcases List.mem_append.mp hx with h | h
        · exact hs x h
        · simp at h; rw [h]; rfl)]
      simp

theorem map_range_const (k : Nat) (c : α) :
    (List.range k).map (fun _ => c) = List.replicate k c := by
  induction k with
  | zero => rfl
  | succ k ih =>
    rw [List.range_succ, List.map_append, ih, List.replicate_succ']
    rfl

theorem slotBound_append_none (l : List (Option α)) :
    slotBound (l ++ [(none : Option α)]) = slotBound l := by
  rw [slotBound, trimSlots_append_none]
  rfl

theorem general_branch_nodes [Inhabited V] (tns : List (Option V))
    (hend : endsSome tns = true) :
    (buildLoop (encN tns 0) ({ nodes := [], edges := [] } : Store V E) []).2.foldl
        (fun s t => s.remove_node t)
        (buildLoop (encN tns 0) ({ nodes := [], edges := [] } : Store V E) []).1 =
      { nodes := tns, edges := [] } := by
  have hb := buildLoop_spec (E := E) tns 0 { nodes := [], edges := [] } []
    (by simp) (by simp) hend
  rw [hb]
  simp only [List.nil_append, Nat.sub_zero, List.length_nil,
    List.replicate_zero, List.range'_zero]
  have hlive : ∀ t ∈ noneIdx tns 0,
      (slotAt (tns.map fun x => some (x.getD default)) t).isSome := by
    intro t ht
    obtain ⟨_, hlt, _⟩ := (mem_noneIdx tns 0 t).mp ht
    simp only [Nat.sub_zero] at hlt
    rw [slotAt_map_lt _ _ _ (by simpa using hlt)]
    rfl
  rw [remove_fold_store (noneIdx tns 0) _ rfl (noneIdx_nodup tns 0) hlive]
  have hnodes : (noneIdx tns 0).foldl (fun ns t => ns.set t none)
      (tns.map fun x => some (x.getD default)) = tns := by
    apply slotAt_ext
    · rw [set_fold_length]
      simp
    · intro i
      rw [set_fold_slotAt]
      by_cases hmem : i ∈ noneIdx tns 0
      · obtain ⟨_, hlt, hnone⟩ := (mem_noneIdx tns 0 i).mp hmem
        simp only [Nat.sub_zero] at hlt hnone
        rw [if_pos hmem, hnone]
      · rw [if_neg hmem]
        by_cases hlt : i < tns.length
        · rw [slotAt_map_lt _ _ _ (by simpa using hlt)]
          have : ¬(slotAt tns i = none) := by
            intro hc
            exact hmem ((mem_noneIdx tns 0 i).mpr
              ⟨Nat.zero_le _, by simpa using hlt, by simpa using hc⟩)
          cases hx : slotAt tns i with
          | none => exact absurd hx this
          | some w =>
            rw [slotAt_eq_getElem _ _ hlt] at hx
            rw [hx]
            rfl
        · push_neg at hlt
          rw [slotAt_of_ge_length _ _ (by simpa using hlt),
            slotAt_of_ge_length _ _ hlt]
  rw [hnodes]

theorem single_branch_nodes [Inhabited V] (H : Nat) (w : V) :
    (List.range H).foldl (fun s i => s.remove_node i)
        ((((List.range H).foldl (fun s _ => (s.add_node default).1)
          ({ nodes := [], edges := [] } : Store V E)).add_node w).1) =
      { nodes := List.replicate H none ++ [some w], edges := [] } := by
  have hA : (List.range H).foldl (fun s _ => (s.add_node default).1)
      ({ nodes := [], edges := [] } : Store V E) =
      { nodes := [] ++ (List.range H).map fun _ => some (default : V),
        edges := [] } :=
    foldl_add_node_range H (fun _ => default) _ (by simp)
  rw [map_range_const, List.nil_append] at hA
  rw [hA]
  have hB : Store.add_node
      ({ nodes := List.replicate H (some (default : V)), edges := [] } :
        Store V E) w =
      ({ nodes := List.replicate H (some default) ++ [some w], edges := [] },
        (List.replicate H (some (default : V))).length) := by
    have hall : ∀ x ∈ List.replicate H (some (default : V)), x.isSome := by
      intro x hx
      rw [List.eq_of_mem_replicate hx]
      rfl
    rw [Store.add_node]
    simp only [allocSlot_of_allSome _ _ hall]
  rw [hB]
  simp only
  have hlive : ∀ t ∈ List.range H,
      (slotAt (List.replicate H (some (default : V)) ++ [some w]) t).isSome := by
    intro t ht
    have hlt : t < H := List.mem_range.mp ht
    rw [slotAt_append_left _ _ _ (by simpa using hlt),
      slotAt_replicate_lt _ _ _ hlt]
    rfl
  rw [remove_fold_store (List.range H) _ rfl (List.nodup_range H) hlive]
  have hnodes : (List.range H).foldl (fun ns t => ns.set t none)
      (List.replicate H (some (default : V)) ++ [some w]) =
      List.replicate H none ++ [some w] := by
    apply slotAt_ext
    · rw [set_fold_length]
      simp
    · intro i
      rw [set_fold_slotAt]
      by_cases hlt : i < H
      · rw [if_pos (List.mem_range.mpr hlt)]
        rw [slotAt_append_left _ _ _ (by simpa using hlt),
          slotAt_replicate_none]
      · rw [if_neg (by simpa using hlt)]
        push_neg at hlt
        rw [slotAt_append_right _ _ _ (by simpa using hlt),
          slotAt_append_right _ _ _ (by simpa using hlt)]
        simp [List.length_replicate]
  rw [hnodes]

theorem edge_fold_appends [Inhabited E] (t : Nat)
    (eel : List (Option (EdgeData E))) :
    ∀ s : Store V E, (∀ x ∈ s.edges, x.isSome) →
      eel.foldl (fun s slot =>
        match slot with
        | none => (s.add_edge t t default).1
        | some e => (s.add_edge e.1 e.2.1 e.2.2).1) s =
        { s with edges := s.edges ++ eel.map fun slot =>
            match slot with
            | none => some (t, t, default)
            | some e => some e } := by
  induction eel with
  | nil => intro s _; simp
  | cons slot rest ih =>
    intro s hs
    match slot with
    | none =>
      show List.foldl _ ((s.add_edge t t default).1) rest =
        { s with edges := s.edges ++ (some (t, t, default) :: rest.map fun slot =>
            match slot with
            | none => some ((t, t, default) : EdgeData E)
            | some e => some e) }
      have hadd : (s.add_edge t t default).1 =
          { s with edges := s.edges ++ [some ((t, t, default) : EdgeData E)] } := by
        rw [Store.add_edge]
        simp only [allocSlot_of_allSome _ _ hs]
      rw [hadd, ih _ (by
        intro x hx
        rcases List.mem_append.mp hx with h | h
        · exact hs x h
        · simp at h; rw [h]; rfl)]
      simp
    | some e =>
      show List.foldl _ ((s.add_edge e.1 e.2.1 e.2.2).1) rest =
        { s with edges := s.edges ++ (some (e.1, e.2.1, e.2.2) :: rest.map fun slot =>
            match slot with
            | none => some ((t, t, default) : EdgeData E)
            | some e => some e) }
      have hadd : (s.add_edge e.1 e.2.1 e.2.2).1 =
          { s with edges := s.edges ++ [some (e.1, e.2.1, e.2.2)] } := by
        rw [Store.add_edge]
        simp only [allocSlot_of_allSome _ _ hs]
      rw [hadd, ih _ (by
        intro x hx
        rcases List.mem_append.mp hx with h | h
        · exact hs x h
        · simp at h; rw [h]; rfl)]
      simp

theorem map_id_of_eq (l : List α) (f : α → α) (h : ∀ a ∈ l, f a = a) :
    l.map f = l := by
  induction l with
  | nil => rfl
  | cons a rest ih =>
    simp only [List.map_cons, h a (by simp),
      ih fun b hb => h b (by simp [hb])]

theorem edge_phase_spec [Inhabited V] [Inhabited E] (s1 : Store V E)
    (eel : List (Option (EdgeData E)))
    (hedges : s1.edges = [])
    (hvalid : ∀ slot ∈ eel, ∀ u v w, slot = some (u, v, w) →
      (slotAt s1.nodes u).isSome ∧ (slotAt s1.nodes v).isSome) :
    (∀ i, slotAt ((eel.foldl (fun s slot =>
        match slot with
        | none => (s.add_edge (s1.add_node default).2 (s1.add_node default).2
            default).1
        | some e => (s.add_edge e.1 e.2.1 e.2.2).1)
        (s1.add_node default).1).remove_node (s1.add_node default).2).nodes i =
      slotAt s1.nodes i) ∧
    slotBound ((eel.foldl (fun s slot =>
        match slot with
        | none => (s.add_edge (s1.add_node default).2 (s1.add_node default).2
            default).1
        | some e => (s.add_edge e.1 e.2.1 e.2.2).1)
        (s1.add_node default).1).remove_node (s1.add_node default).2).nodes =
      slotBound s1.nodes ∧
    ((eel.foldl (fun s slot =>
        match slot with
        | none => (s.add_edge (s1.add_node default).2 (s1.add_node default).2
            default).1
        | some e => (s.add_edge e.1 e.2.1 e.2.2).1)
        (s1.add_node default).1).remove_node (s1.add_node default).2).edges =
      eel := by
  have hrt : s1.add_node (default : V) =
      ({ s1 with nodes := (allocSlot s1.nodes default).1 },
        (allocSlot s1.nodes default).2) := by
    rw [Store.add_node]
  set t := (allocSlot s1.nodes (default : V)).2 with hts
  set ns2 := (allocSlot s1.nodes (default : V)).1 with hns2
  have htnone : slotAt s1.nodes t = none := allocSlot_slot_none s1.nodes default
  have htself : slotAt ns2 t = some default := allocSlot_slot_self s1.nodes default
  rw [hrt]
  simp only
  rw [edge_fold_appends t eel { s1 with nodes := ns2 } (by
    intro x hx
    rw [hedges] at hx
    simp at hx)]
  simp only [hedges, List.nil_append]
  rw [Store.remove_node]
  simp only
  rw [if_pos (by rw [htself]; rfl)]
  simp only
  have hkill : (eel.map fun slot =>
      match slot with
      | none => some ((t, t, default) : EdgeData E)
      | some e => some e).map (fun s =>
        match s with
        | some e => if touchesNode t e then none else some e
        | none => none) = eel := by
    rw [List.map_map]
    have hid : ∀ slot ∈ eel, ((fun s =>
        match s with
        | some e => if touchesNode t e then none else some e
        | none => none) ∘ (fun slot =>
          match slot with
          | none => some ((t, t, default) : EdgeData E)
          | some e => some e)) slot = slot := by
      intro slot hslot
      match slot with
      | none =>
        show (if touchesNode t ((t, t, default) : EdgeData E) then none
          else some ((t, t, default) : EdgeData E)) = none
        rw [if_pos (by simp [touchesNode])]
      | some e =>
        show (if touchesNode t e then none else some e) = some e
        obtain ⟨hu, hv⟩ := hvalid (some e) hslot e.1 e.2.1 e.2.2 rfl
        have hut : e.1 ≠ t := by
          intro hc
          rw [hc, htnone] at hu
          exact Bool.noConfusion hu
        have hvt : e.2.1 ≠ t := by
          intro hc
          rw [hc, htnone] at hv
          exact Bool.noConfusion hv
        rw [if_neg (by simp [touchesNode, hut, hvt])]
    exact map_id_of_eq eel _ hid
  refine ⟨?_, ?_, hkill⟩
  · intro i
    rcases alloc_then_clear s1.nodes (default : V) with hcase | hcase
    · rw [← hts, ← hns2] at hcase
      rw [hcase]
    · rw [← hts, ← hns2] at hcase
      rw [hcase, slotAt_append_none_all]
  · rcases alloc_then_clear s1.nodes (default : V) with hcase | hcase
    · rw [← hts, ← hns2] at hcase
      rw [hcase]
    · rw [← hts, ← hns2] at hcase
      rw [hcase, slotBound_append_none]

/-! ## Claim C1 -/

/-- The node phase of `__setstate__` on a non-empty encoded state: all three
decode paths (no holes / single node / general) rebuild exactly the trimmed
node table of the encoded container, before the edge phase runs on it. -/
theorem setstate_nodes_phase [Inhabited V] [Inhabited E] (mg flag : Bool)
    (ns : List (Option V)) (eel : List (Option (EdgeData E)))
    (hne : encN ns 0 ≠ [])
    (hnohole : flag = false → ∀ x ∈ ns, x.isSome) :
    setstate mg (⟨encN ns 0, eel, flag⟩ : GState V E) =
      { graph := (eel.foldl (fun s slot =>
          match slot with
          | none => (s.add_edge
              ((⟨trimSlots ns, []⟩ : Store V E).add_node default).2
              ((⟨trimSlots ns, []⟩ : Store V E).add_node default).2 default).1
          | some e => (s.add_edge e.1 e.2.1 e.2.2).1)
          ((⟨trimSlots ns, []⟩ : Store V E).add_node default).1).remove_node
            ((⟨trimSlots ns, []⟩ : Store V E).add_node default).2,
        node_removed := flag, multigraph := mg } := by
  have hempty : ((⟨encN ns 0, eel, flag⟩ : GState V E)).nodes.isEmpty = false := by
    show (encN ns 0).isEmpty = false
    cases h : encN ns 0 with
    | nil => exact absurd h hne
    | cons a l => rfl
  have htne : trimSlots ns ≠ [] := by
    intro hc
    apply hne
    rw [encN_trim, hc]
    rfl
  have hend : endsSome (trimSlots ns) = true := by
    rcases endsSome_trimSlots ns with h | h
    · exact absurd h htne
    · exact h
  rw [setstate]
  rw [if_neg (by rw [hempty]; simp)]
  simp only []
  cases hflag : flag with
  | false =>
    have hallsome := hnohole hflag
    have htrim : trimSlots ns = ns := trimSlots_allSome ns hallsome
    have hs1 : (encN ns 0).foldl (fun s p => (s.add_node p.2).1)
        ({ nodes := [], edges := [] } : Store V E) =
        ({ nodes := trimSlots ns, edges := [] } : Store V E) := by
      rw [fold_addnode_encN ns 0 _ hallsome (by simp), htrim]
      simp
    simp only [Bool.not_false, if_true]
    rw [hs1]
  | true =>
    simp only [Bool.not_true, Bool.false_eq_true, if_false]
    by_cases hl : ((encN ns 0).length == 1) = true
    · simp only [hl, if_true]
      obtain ⟨⟨H, w⟩, hp⟩ := List.length_eq_one.mp (by simpa using hl)
      have htr : trimSlots ns = List.replicate H none ++ [some w] := by
        have henc : encN (trimSlots ns) 0 = [(H, w)] := by
          rw [← encN_trim]
          exact hp
        have := encN_singleton (trimSlots ns) 0 H w hend henc
        simpa using this.1
      rw [hp]
      simp only [List.getD_cons_zero]
      rw [htr]
      rw [single_branch_nodes H w]
    · have hl1 : ((encN ns 0).length == 1) = false := by
        simpa using hl
      simp only [hl1, Bool.false_eq_true, if_false]
      rw [encN_trim]
      rw [general_branch_nodes (trimSlots ns) hend]


/-- Reading every slot of a table up to its length reproduces the table. -/
theorem range_map_slotAt (L : List (Option α)) :
    (List.range L.length).map (fun i => slotAt L i) = L := by
  induction L with
  | nil => rfl
  | cons a tail ih =>
    rw [List.length_cons, List.range_succ_eq_map, List.map_cons, List.map_map]
    have h0 : slotAt (a :: tail) 0 = a := rfl
    have hf : ((fun i => slotAt (a :: tail) i) ∘ Nat.succ) =
        (fun i => slotAt tail i) := by
      funext i
      simp [slotAt]
    rw [h0, hf, ih]

/-- The edge list `__getstate__` emits (slot contents for every index below
the edge bound) is exactly the trimmed edge table. -/
theorem getstate_edges_eq_trim (l : List (Option α)) :
    (List.range (slotBound l)).map (fun i => slotAt l i) = trimSlots l := by
  have hfun : (fun i => slotAt l i) = (fun i => slotAt (trimSlots l) i) :=
    funext fun i => (slotAt_trimSlots l i).symm
  rw [hfun, slotBound]
  exact range_map_slotAt (trimSlots l)

/-- Trimming only drops slots, so membership transfers back. -/
theorem mem_trimSlots (x : Option α) (l : List (Option α))
    (h : x ∈ trimSlots l) : x ∈ l := by
  rw [trimSlots, List.mem_reverse] at h
  have hsub := (List.dropWhile_sublist (fun s : Option α => s.isNone)).subset h
  exact List.mem_reverse.mp hsub

/-- Claim C1: for every well-formed container (holes included), decoding the
`__getstate__` encoding with `__setstate__` into a fresh container of the same
multigraph kind reproduces the multigraph flag, the holes flag, the node and
edge bounds, and the content of every node and edge slot — liveness, payloads
and endpoints, with the holes at the same positions. -/
theorem getstate_setstate_roundtrip [Inhabited V] [Inhabited E]
    (g : PyGraph V E) (hwf : g.WFb = true) :
    (setstate g.multigraph g.getstate).multigraph = g.multigraph ∧
    (setstate g.multigraph g.getstate).node_removed = g.node_removed ∧
    slotBound (setstate g.multigraph g.getstate).graph.nodes =
      slotBound g.graph.nodes ∧
    slotBound (setstate g.multigraph g.getstate).graph.edges =
      slotBound g.graph.edges ∧
    (∀ i, slotAt (setstate g.multigraph g.getstate).graph.nodes i =
      slotAt g.graph.nodes i) ∧
    (∀ i, slotAt (setstate g.multigraph g.getstate).graph.edges i =
      slotAt g.graph.edges i) := by
  rw [PyGraph.WFb, Bool.and_eq_true] at hwf
  have hwf1 : ∀ slot ∈ g.graph.edges, ∀ u v w,
      slot = some ((u, v, w) : EdgeData E) →
      (slotAt g.graph.nodes u).isSome = true ∧
      (slotAt g.graph.nodes v).isSome = true := by
    intro slot hslot u v w hsl
    have hall := (List.all_eq_true.mp hwf.1) slot hslot
    subst hsl
    have hall2 : ((slotAt g.graph.nodes u).isSome &&
        (slotAt g.graph.nodes v).isSome) = true := hall
    exact ⟨(Bool.and_elim_left hall2 : _), (Bool.and_elim_right hall2 : _)⟩
  have hgs : g.getstate = (⟨encN g.graph.nodes 0, trimSlots g.graph.edges,
      g.node_removed⟩ : GState V E) := by
    rw [PyGraph.getstate, getstate_edges_eq_trim]
  rw [hgs]
  by_cases hnil : encN g.graph.nodes 0 = []
  · have hallnone : ∀ x ∈ g.graph.nodes, x = none :=
      (encN_eq_nil g.graph.nodes 0).mp hnil
    have hedgenone : ∀ x ∈ g.graph.edges, x = none := by
      intro x hx
      match x with
      | none => rfl
      | some e =>
        have h1 := (hwf1 (some e) hx e.1 e.2.1 e.2.2 rfl).1
        rw [allNone_slotAt g.graph.nodes hallnone e.1] at h1
        exact Bool.noConfusion h1
    have htrimN : trimSlots g.graph.nodes = [] := trimSlots_allNone _ hallnone
    have htrimE : trimSlots g.graph.edges = [] := trimSlots_allNone _ hedgenone
    rw [htrimE, hnil, setstate, if_pos (by rfl)]
    refine ⟨rfl, rfl, ?_, ?_, ?_, ?_⟩
    · show slotBound ([] : List (Option V)) = slotBound g.graph.nodes
      rw [slotBound, slotBound, htrimN]
      rfl
    · show slotBound ([] : List (Option (EdgeData E))) = slotBound g.graph.edges
      rw [slotBound, slotBound, htrimE]
      rfl
    · intro i
      show slotAt ([] : List (Option V)) i = slotAt g.graph.nodes i
      rw [allNone_slotAt g.graph.nodes hallnone i]
      simp [slotAt]
    · intro i
      show slotAt ([] : List (Option (EdgeData E))) i = slotAt g.graph.edges i
      rw [allNone_slotAt g.graph.edges hedgenone i]
      simp [slotAt]
  · have hnohole : g.node_removed = false → ∀ x ∈ g.graph.nodes, x.isSome := by
      intro hfl x hx
      have h2 := hwf.2
      rw [hfl, Bool.false_or] at h2
      exact List.all_eq_true.mp h2 x hx
    rw [setstate_nodes_phase g.multigraph g.node_removed g.graph.nodes
      (trimSlots g.graph.edges) hnil hnohole]
    have hvalid : ∀ slot ∈ trimSlots g.graph.edges, ∀ u v w,
        slot = some ((u, v, w) : EdgeData E) →
        (slotAt ((⟨trimSlots g.graph.nodes, []⟩ : Store V E)).nodes u).isSome = true ∧
        (slotAt ((⟨trimSlots g.graph.nodes, []⟩ : Store V E)).nodes v).isSome = true := by
      intro slot hslot u v w hsl
      have hmem := mem_trimSlots slot g.graph.edges hslot
      have h1 := hwf1 slot hmem u v w hsl
      show (slotAt (trimSlots g.graph.nodes) u).isSome = true ∧
        (slotAt (trimSlots g.graph.nodes) v).isSome = true
      rw [slotAt_trimSlots, slotAt_trimSlots]
      exact h1
    obtain ⟨hA, hB, hC⟩ := edge_phase_spec
      (⟨trimSlots g.graph.nodes, []⟩ : Store V E) (trimSlots g.graph.edges)
      rfl hvalid
    refine ⟨rfl, rfl, ?_, ?_, ?_, ?_⟩
    · exact hB.trans (slotBound_trimSlots_eq g.graph.nodes)
    · exact (congrArg slotBound hC).trans (slotBound_trimSlots_eq g.graph.edges)
    · intro i
      exact (hA i).trans (slotAt_trimSlots g.graph.nodes i)
    · intro i
      exact (congrArg (fun l => slotAt l i) hC).trans
        (slotAt_trimSlots g.graph.edges i)

/-- Witness for C1 at a concrete container with one node hole and one edge
hole. -/
theorem getstate_setstate_roundtrip_witness :
    exHoley.WFb = true ∧
    ((setstate exHoley.multigraph exHoley.getstate).multigraph =
        exHoley.multigraph ∧
      (setstate exHoley.multigraph exHoley.getstate).node_removed =
        exHoley.node_removed ∧
      slotBound (setstate exHoley.multigraph exHoley.getstate).graph.nodes =
        slotBound exHoley.graph.nodes ∧
      slotBound (setstate exHoley.multigraph exHoley.getstate).graph.edges =
        slotBound exHoley.graph.edges ∧
      (∀ i, slotAt (setstate exHoley.multigraph exHoley.getstate).graph.nodes i =
        slotAt exHoley.graph.nodes i) ∧
      (∀ i, slotAt (setstate exHoley.multigraph exHoley.getstate).graph.edges i =
        slotAt exHoley.graph.edges i)) :=
  ⟨by decide, getstate_setstate_roundtrip exHoley (by decide)⟩
